import Mathlib

/-!
Verification of the interval-normalization and aggregation engine of the
zorus-timeline repository, shallowly embedded in Lean 4.

Embedding conventions:

* JavaScript `Date` values and numbers are modelled as rationals (`ℚ`).
  A `Date` holds an integer count of milliseconds; all operations the code
  performs on dates and numbers (comparison, `max`/`min`, subtraction,
  division) are order/field operations, so `ℚ` is a faithful carrier that
  also represents continuous time points between millisecond ticks.
* `date-fns` v3 `differenceInSeconds` / `differenceInMinutes` use the
  default rounding method `trunc` (toward zero); `jsTrunc` models
  `Math.trunc`, and `round` (Mathlib's `⌊x + 1/2⌋`) models `Math.round`,
  which agrees with it on all inputs.
* Functions that mutate state are embedded by making the state explicit:
  `mergeIntervalsPost` is the content of the caller's array after
  `mergeIntervals` returns (the in-place defensive `Array.prototype.sort`).
* Sub-parsers that turn raw strings into `Date | null` are abstracted by
  their result: a CSV row is modelled carrying the `Option ℚ` outcome of
  `parseTimestampToDate` / `parseCsvDateTime` on its timestamp cells.
-/

/-- Math.trunc on rationals: rounding toward zero, as used by the default
rounding method of date-fns difference functions. -/
def jsTrunc (q : ℚ) : ℤ := if q < 0 then ⌈q⌉ else ⌊q⌋

/-- src/lib/activity-utils.ts: `interface TimeInterval { start: Date; end: Date }`. -/
structure TimeInterval where
  start : ℚ
  «end» : ℚ
deriving DecidableEq, Repr

/-- The comparator `(a, b) => a.start.getTime() - b.start.getTime()` orders
intervals by start time. -/
def startLE (a b : TimeInterval) : Prop := a.start ≤ b.start

instance : DecidableRel startLE := fun a b => inferInstanceAs (Decidable (a.start ≤ b.start))

instance : IsTotal TimeInterval startLE := ⟨fun a b => le_total a.start b.start⟩

instance : IsTrans TimeInterval startLE := ⟨fun _ _ _ h1 h2 => le_trans h1 h2⟩

/-- The loop of `mergeIntervals` (src/lib/activity-utils.ts, lines 30-46):
`currentInterval` is extended while the next interval starts at or before
`currentInterval.end` (`<=`, merging adjacent intervals), otherwise it is
emitted and the next interval becomes current. -/
def mergeLoop (current : TimeInterval) : List TimeInterval → List TimeInterval
  | [] => [current]
  | nextInterval :: rest =>
    if nextInterval.start ≤ current.end then
      mergeLoop ⟨current.start,
        if current.end < nextInterval.end then nextInterval.end else current.end⟩ rest
    else
      current :: mergeLoop nextInterval rest

/-- src/lib/activity-utils.ts `mergeIntervals`: sorts the input by start
time (defensive in-place sort) and folds `mergeLoop` over it.  Empty input
returns an empty array. -/
def mergeIntervals (intervals : List TimeInterval) : List TimeInterval :=
  match List.insertionSort startLE intervals with
  | [] => []
  | first :: rest => mergeLoop first rest

/-- The contents of the caller-owned input array after `mergeIntervals`
returns: `intervals.sort(...)` sorts the caller's array in place, so the
array afterwards holds the same intervals reordered ascending by start.
(The returned intervals themselves are `structuredClone` copies, so
object-level aliasing of outputs into inputs does not occur; object
identity is not representable at this value level.) -/
def mergeIntervalsPost (intervals : List TimeInterval) : List TimeInterval :=
  List.insertionSort startLE intervals

/-- date-fns `differenceInSeconds(later, earlier)`: millisecond difference
divided by 1000, rounded toward zero. -/
def differenceInSeconds (later earlier : ℚ) : ℤ := jsTrunc ((later - earlier) / 1000)

/-- date-fns `differenceInMinutes(later, earlier)`: millisecond difference
divided by 60000, rounded toward zero. -/
def differenceInMinutes (later earlier : ℚ) : ℤ := jsTrunc ((later - earlier) / 60000)

/-- src/lib/activity-utils.ts `calculateTotalDuration`: sums
`Math.max(0, differenceInSeconds(interval.end, interval.start))` over the
intervals and converts the total seconds to (possibly fractional) minutes. -/
def calculateTotalDuration (intervals : List TimeInterval) : ℚ :=
  (((intervals.map fun i => max 0 (differenceInSeconds i.end i.start)).sum : ℤ) : ℚ) / 60

/-- The set of time points covered by a list of intervals, reading
`{start, end}` as the closed span of instants from `start` to `end`. -/
def covers (l : List TimeInterval) : Set ℚ :=
  { x | ∃ i ∈ l, i.start ≤ x ∧ x ≤ i.end }

/-- Two intervals are separated when the first ends strictly before the
second starts: they neither overlap nor touch. -/
def gapped (a b : TimeInterval) : Prop := a.end < b.start

/-- Basic facts about `jsTrunc`. -/
theorem jsTrunc_intCast (n : ℤ) : jsTrunc (n : ℚ) = n := by
  unfold jsTrunc
  split
  · exact Int.ceil_intCast n
  · exact Int.floor_intCast n

theorem jsTrunc_nonpos {q : ℚ} (h : q ≤ 0) : jsTrunc q ≤ 0 := by
  unfold jsTrunc
  split
  · exact Int.ceil_le.2 (by exact_mod_cast h)
  · calc (⌊q⌋ : ℤ) ≤ ⌊(0 : ℚ)⌋ := Int.floor_le_floor h
      _ = 0 := by simp

theorem jsTrunc_eq_floor {q : ℚ} (h : 0 ≤ q) : jsTrunc q = ⌊q⌋ := by
  unfold jsTrunc
  exact if_neg (not_lt.2 h)

theorem jsTrunc_le {q : ℚ} (h : 0 ≤ q) : (jsTrunc q : ℚ) ≤ q := by
  rw [jsTrunc_eq_floor h]
  exact Int.floor_le q

theorem jsTrunc_nonneg {q : ℚ} (h : 0 ≤ q) : 0 ≤ jsTrunc q := by
  rw [jsTrunc_eq_floor h]
  exact Int.floor_nonneg.2 h

/-- The conditional extension of the current interval in `mergeLoop` is the
maximum of the two end times. -/
theorem mergeLoop_cons (current nextInterval : TimeInterval) (rest : List TimeInterval) :
    mergeLoop current (nextInterval :: rest) =
      if nextInterval.start ≤ current.end then
        mergeLoop ⟨current.start, max current.end nextInterval.end⟩ rest
      else
        current :: mergeLoop nextInterval rest := by
  have hmax : (if current.end < nextInterval.end then nextInterval.end else current.end) =
      max current.end nextInterval.end := by
    rcases lt_or_le current.end nextInterval.end with h | h
    · rw [if_pos h, max_eq_right h.le]
    · rw [if_neg (not_lt.2 h), max_eq_left h]
  rw [mergeLoop, hmax]

theorem mergeLoop_ne_nil (current : TimeInterval) (rest : List TimeInterval) :
    mergeLoop current rest ≠ [] := by
  induction rest generalizing current with
  | nil => simp [mergeLoop]
  | cons n r ih =>
    rw [mergeLoop_cons]
    split
    · exact ih _
    · simp

/-- The first interval produced by `mergeLoop` starts where `current`
starts and ends no earlier than `current`. -/
theorem mergeLoop_head (current : TimeInterval) (rest : List TimeInterval) :
    ∃ d t, mergeLoop current rest = d :: t ∧ d.start = current.start ∧ current.end ≤ d.end := by
  induction rest generalizing current with
  | nil => exact ⟨current, [], rfl, rfl, le_refl _⟩
  | cons n r ih =>
    rw [mergeLoop_cons]
    split
    · obtain ⟨d, t, h1, h2, h3⟩ := ih ⟨current.start, max current.end n.end⟩
      exact ⟨d, t, h1, h2, le_trans (le_max_left _ _) h3⟩
    · exact ⟨current, mergeLoop n r, rfl, rfl, le_refl _⟩

/-- `mergeLoop` preserves well-formedness (`start ≤ end`) of intervals. -/
theorem mergeLoop_wf {current : TimeInterval} {rest : List TimeInterval}
    (hc : current.start ≤ current.end) (hr : ∀ i ∈ rest, i.start ≤ i.end) :
    ∀ i ∈ mergeLoop current rest, i.start ≤ i.end := by
  induction rest generalizing current with
  | nil => simpa [mergeLoop] using hc
  | cons n r ih =>
    rw [mergeLoop_cons]
    split
    · exact ih (le_trans hc (le_max_left _ _)) fun i hi => hr i (List.mem_cons_of_mem _ hi)
    · intro i hi
      rcases List.mem_cons.1 hi with h | h
      · exact h ▸ hc
      · exact ih (hr n (List.mem_cons_self _ _)) (fun j hj => hr j (List.mem_cons_of_mem _ hj)) i h

/-- On a start-sorted tail, `mergeLoop` produces a strictly separated list:
consecutive output intervals neither overlap nor touch. -/
theorem mergeLoop_chain {current : TimeInterval} {rest : List TimeInterval}
    (hs : List.Sorted startLE rest) (hlb : ∀ i ∈ rest, current.start ≤ i.start) :
    List.Chain' gapped (mergeLoop current rest) := by
  induction rest generalizing current with
  | nil => simp [mergeLoop]
  | cons n r ih =>
    have hsr : List.Sorted startLE r := hs.of_cons
    have hnr : ∀ i ∈ r, n.start ≤ i.start := fun i hi => List.rel_of_sorted_cons hs i hi
    rw [mergeLoop_cons]
    split
    · exact ih hsr fun i hi =>
        le_trans (hlb n (List.mem_cons_self _ _)) (hnr i hi)
    · rename_i hgap
      obtain ⟨d, t, heq, hds, _⟩ := mergeLoop_head n r
      rw [heq]
      refine List.Chain'.cons ?_ (heq ▸ ih hsr hnr)
      show current.end < d.start
      rw [hds]
      exact not_le.1 hgap

theorem covers_cons (i : TimeInterval) (l : List TimeInterval) :
    covers (i :: l) = { x | i.start ≤ x ∧ x ≤ i.end } ∪ covers l := by
  ext x
  simp only [covers, Set.mem_setOf_eq, Set.mem_union, List.mem_cons]
  constructor
  · rintro ⟨j, hj | hj, hx⟩
    · exact Or.inl (hj ▸ hx)
    · exact Or.inr ⟨j, hj, hx⟩
  · rintro (hx | ⟨j, hj, hx⟩)
    · exact ⟨i, Or.inl rfl, hx⟩
    · exact ⟨j, Or.inr hj, hx⟩

theorem covers_perm {l₁ l₂ : List TimeInterval} (h : l₁.Perm l₂) : covers l₁ = covers l₂ := by
  ext x
  simp only [covers, Set.mem_setOf_eq]
  constructor
  · rintro ⟨i, hi, hx⟩
    exact ⟨i, h.mem_iff.1 hi, hx⟩
  · rintro ⟨i, hi, hx⟩
    exact ⟨i, h.mem_iff.2 hi, hx⟩

/-- Merging a next interval that starts inside (or at the end of) the
current one covers exactly the union of the two closed spans. -/
theorem covers_merge_step {c n : TimeInterval} (h1 : c.start ≤ n.start) (h2 : n.start ≤ c.end)
    (x : ℚ) :
    (c.start ≤ x ∧ x ≤ max c.end n.end) ↔
      ((c.start ≤ x ∧ x ≤ c.end) ∨ (n.start ≤ x ∧ x ≤ n.end)) := by
  constructor
  · rintro ⟨ha, hb⟩
    rcases le_or_lt x c.end with h | h
    · exact Or.inl ⟨ha, h⟩
    · refine Or.inr ⟨le_trans h2 h.le, ?_⟩
      rcases max_cases c.end n.end with ⟨he, _⟩ | ⟨he, _⟩
      · exact absurd (he ▸ hb) (not_le.2 h)
      · exact he ▸ hb
  · rintro (⟨ha, hb⟩ | ⟨ha, hb⟩)
    · exact ⟨ha, le_trans hb (le_max_left _ _)⟩
    · exact ⟨le_trans h1 ha, le_trans hb (le_max_right _ _)⟩

/-- `mergeLoop` covers exactly the same time points as `current :: rest`. -/
theorem mergeLoop_covers {current : TimeInterval} {rest : List TimeInterval}
    (hs : List.Sorted startLE rest) (hlb : ∀ i ∈ rest, current.start ≤ i.start) :
    covers (mergeLoop current rest) = covers (current :: rest) := by
  induction rest generalizing current with
  | nil => simp [mergeLoop]
  | cons n r ih =>
    have hsr : List.Sorted startLE r := hs.of_cons
    have hnr : ∀ i ∈ r, n.start ≤ i.start := fun i hi => List.rel_of_sorted_cons hs i hi
    rw [mergeLoop_cons]
    split
    · rename_i hin
      have h1 : current.start ≤ n.start := hlb n (List.mem_cons_self _ _)
      rw [@ih ⟨current.start, max current.end n.end⟩ hsr
        (fun i hi => hlb i (List.mem_cons_of_mem _ hi))]
      ext x
      rw [covers_cons, covers_cons, covers_cons]
      simp only [Set.mem_union, Set.mem_setOf_eq]
      rw [covers_merge_step h1 hin x]
      tauto
    · rw [covers_cons, @ih n hsr hnr, covers_cons, covers_cons, covers_cons]

/-- A separated chain of well-formed intervals bounds all later intervals
away from the head. -/
theorem chain_gapped_head_lb {a : TimeInterval} {L : List TimeInterval}
    (hc : List.Chain' gapped (a :: L)) (hwf : ∀ i ∈ L, i.start ≤ i.end) :
    ∀ b ∈ L, a.end < b.start := by
  induction L generalizing a with
  | nil => intro b hb; cases hb
  | cons b L ih =>
    have h1 : gapped a b := (List.chain'_cons.1 hc).1
    have h2 : List.Chain' gapped (b :: L) := (List.chain'_cons.1 hc).2
    intro c hc'
    rcases List.mem_cons.1 hc' with h | h
    · exact h ▸ h1
    · have hb : b.start ≤ b.end := hwf b (List.mem_cons_self _ _)
      have := ih h2 (fun i hi => hwf i (List.mem_cons_of_mem _ hi)) c h
      exact lt_trans (lt_of_lt_of_le h1 hb) this

/-- A separated chain of well-formed intervals is pairwise separated. -/
theorem chain_gapped_pairwise {L : List TimeInterval}
    (hc : List.Chain' gapped L) (hwf : ∀ i ∈ L, i.start ≤ i.end) :
    List.Pairwise gapped L := by
  induction L with
  | nil => exact List.Pairwise.nil
  | cons a L ih =>
    refine List.Pairwise.cons ?_ (ih hc.tail fun i hi => hwf i (List.mem_cons_of_mem _ hi))
    exact chain_gapped_head_lb hc fun i hi => hwf i (List.mem_cons_of_mem _ hi)

/-- Starts are monotone along a pairwise-separated list of well-formed
intervals. -/
theorem pairwise_start_mono {L : List TimeInterval}
    (hp : List.Pairwise gapped L) (hwf : ∀ i ∈ L, i.start ≤ i.end)
    {a b : Fin L.length} (h : (a : ℕ) ≤ (b : ℕ)) : (L.get a).start ≤ (L.get b).start := by
  rcases eq_or_lt_of_le h with h1 | h1
  · have : a = b := Fin.ext h1
    rw [this]
  · have hg : gapped (L.get a) (L.get b) := List.pairwise_iff_get.1 hp a b h1
    have hwa : (L.get a).start ≤ (L.get a).end := hwf _ (L.get_mem a.1 a.2)
    exact le_of_lt (lt_of_le_of_lt hwa hg)

/-- Minimality: no list of intervals covering the same set of time points
as a pairwise-separated well-formed list can be shorter. -/
theorem gapped_min_length {L : List TimeInterval}
    (hp : List.Pairwise gapped L) (hwf : ∀ i ∈ L, i.start ≤ i.end)
    (M : List TimeInterval) (hcov : covers M = covers L) : L.length ≤ M.length := by
  have hx : ∀ i : Fin L.length, ∃ j : Fin M.length,
      (M.get j).start ≤ (L.get i).start ∧ (L.get i).start ≤ (M.get j).end := by
    intro i
    have hmemL : L.get i ∈ L := L.get_mem i.1 i.2
    have hmem : (L.get i).start ∈ covers L := ⟨L.get i, hmemL, le_refl _, hwf _ hmemL⟩
    rw [← hcov] at hmem
    obtain ⟨m, hmM, h1, h2⟩ := hmem
    obtain ⟨j, hj⟩ := List.mem_iff_get.1 hmM
    exact ⟨j, hj ▸ h1, hj ▸ h2⟩
  choose f hf using hx
  have hpg : ∀ a b : Fin L.length, a < b → gapped (L.get a) (L.get b) :=
    fun a b hab => List.pairwise_iff_get.1 hp a b hab
  have key : ∀ i j : Fin L.length, i < j → f i ≠ f j := by
    intro i j hij heq
    have hi1 : (i : ℕ) + 1 < L.length := lt_of_le_of_lt (Nat.succ_le_of_lt hij) j.isLt
    have hgap1 : (L.get i).end < (L.get ⟨(i : ℕ) + 1, hi1⟩).start :=
      hpg i ⟨(i : ℕ) + 1, hi1⟩ (by rw [Fin.lt_def]; exact Nat.lt_succ_self _)
    have hg1 : (L.get i).end < ((L.get i).end + (L.get ⟨(i : ℕ) + 1, hi1⟩).start) / 2 := by
      linarith
    have hg2 : ((L.get i).end + (L.get ⟨(i : ℕ) + 1, hi1⟩).start) / 2 <
        (L.get ⟨(i : ℕ) + 1, hi1⟩).start := by linarith
    have hstart_le : (L.get ⟨(i : ℕ) + 1, hi1⟩).start ≤ (L.get j).start :=
      pairwise_start_mono hp hwf (Nat.succ_le_of_lt hij)
    have hwi : (L.get i).start ≤ (L.get i).end := hwf _ (L.get_mem i.1 i.2)
    have hgM : ((L.get i).end + (L.get ⟨(i : ℕ) + 1, hi1⟩).start) / 2 ∈ covers M := by
      refine ⟨M.get (f i), M.get_mem (f i).1 (f i).2, ?_, ?_⟩
      · exact le_trans (hf i).1 (le_trans hwi hg1.le)
      · have h2 : (L.get j).start ≤ (M.get (f i)).end := heq ▸ (hf j).2
        exact le_trans hg2.le (le_trans hstart_le h2)
    rw [hcov] at hgM
    obtain ⟨c, hcL, hc1, hc2⟩ := hgM
    obtain ⟨k, hk⟩ := List.mem_iff_get.1 hcL
    rcases lt_trichotomy (k : ℕ) (i : ℕ) with h | h | h
    · have hg : gapped (L.get k) (L.get i) := hpg k i (by rw [Fin.lt_def]; exact h)
      have : (L.get k).end < (L.get i).end :=
        lt_of_lt_of_le hg (hwf _ (L.get_mem i.1 i.2))
      rw [hk] at this
      linarith
    · have hki : k = i := Fin.ext h
      rw [hki] at hk
      rw [← hk] at hc2
      linarith
    · have h' : (L.get ⟨(i : ℕ) + 1, hi1⟩).start ≤ (L.get k).start :=
        pairwise_start_mono hp hwf (by simpa using Nat.succ_le_of_lt h)
      rw [hk] at h'
      linarith
  have hinj : Function.Injective f := by
    intro i j h
    by_contra hne
    rcases lt_trichotomy i j with h1 | h1 | h1
    · exact key i j h1 h
    · exact hne h1
    · exact key j i h1 h.symm
  have := Fintype.card_le_of_injective f hinj
  simpa using this

/-- Reducing `mergeIntervals` once the sorted list is known. -/
theorem mergeIntervals_eq_mergeLoop {l : List TimeInterval} {first : TimeInterval}
    {rest : List TimeInterval} (h : List.insertionSort startLE l = first :: rest) :
    mergeIntervals l = mergeLoop first rest := by
  unfold mergeIntervals
  rw [h]

theorem mergeIntervals_chain (l : List TimeInterval) :
    List.Chain' gapped (mergeIntervals l) := by
  cases h : List.insertionSort startLE l with
  | nil =>
    have hp := List.perm_insertionSort startLE l
    rw [h] at hp
    have hl : l = [] := List.Perm.eq_nil hp.symm
    subst hl
    exact List.chain'_nil
  | cons first rest =>
    have hs := List.sorted_insertionSort startLE l
    rw [h] at hs
    rw [mergeIntervals_eq_mergeLoop h]
    exact mergeLoop_chain hs.of_cons fun i hi => List.rel_of_sorted_cons hs i hi

theorem mergeIntervals_covers (l : List TimeInterval) :
    covers (mergeIntervals l) = covers l := by
  cases h : List.insertionSort startLE l with
  | nil =>
    have hp := List.perm_insertionSort startLE l
    rw [h] at hp
    have hl : l = [] := List.Perm.eq_nil hp.symm
    subst hl
    rfl
  | cons first rest =>
    have hs := List.sorted_insertionSort startLE l
    rw [h] at hs
    have hp := List.perm_insertionSort startLE l
    rw [h] at hp
    rw [mergeIntervals_eq_mergeLoop h,
      mergeLoop_covers hs.of_cons fun i hi => List.rel_of_sorted_cons hs i hi]
    exact covers_perm hp

theorem mergeIntervals_wf {l : List TimeInterval} (hwf : ∀ i ∈ l, i.start ≤ i.end) :
    ∀ i ∈ mergeIntervals l, i.start ≤ i.end := by
  cases h : List.insertionSort startLE l with
  | nil =>
    have hp := List.perm_insertionSort startLE l
    rw [h] at hp
    have hl : l = [] := List.Perm.eq_nil hp.symm
    subst hl
    simp [mergeIntervals]
  | cons first rest =>
    have hp := List.perm_insertionSort startLE l
    rw [h] at hp
    have hall : ∀ i ∈ first :: rest, i.start ≤ i.end := fun i hi => hwf i (hp.mem_iff.1 hi)
    rw [mergeIntervals_eq_mergeLoop h]
    exact mergeLoop_wf (hall first (List.mem_cons_self _ _))
      fun i hi => hall i (List.mem_cons_of_mem _ hi)

/-- C1: for every list of intervals each satisfying `end >= start`,
`mergeIntervals` returns a list of well-formed intervals that are pairwise
non-overlapping and non-adjacent (strictly separated), sorted strictly
ascending by start, covering exactly the same set of time points as the
input, and minimal: no interval list covering the same point set has fewer
intervals.  In particular the touching intervals [10:00,10:05] and
[10:05,10:10] (in minutes: 600-605 and 605-610) merge into the single
interval [10:00,10:10]. -/
theorem c1_merge_minimal_cover (l : List TimeInterval)
    (hwf : ∀ i ∈ l, i.start ≤ i.end) :
    List.Chain' gapped (mergeIntervals l) ∧
    List.Pairwise (fun a b => a.start < b.start) (mergeIntervals l) ∧
    (∀ i ∈ mergeIntervals l, i.start ≤ i.end) ∧
    covers (mergeIntervals l) = covers l ∧
    (∀ M : List TimeInterval, covers M = covers l → (mergeIntervals l).length ≤ M.length) ∧
    mergeIntervals [⟨600, 605⟩, ⟨605, 610⟩] = [⟨600, 610⟩] := by
  have hchain := mergeIntervals_chain l
  have hwfm := mergeIntervals_wf hwf
  have hpg := chain_gapped_pairwise hchain hwfm
  refine ⟨hchain, ?_, hwfm, mergeIntervals_covers l, ?_, ?_⟩
  · exact hpg.imp_of_mem fun ha _ hg => lt_of_le_of_lt (hwfm _ ha) hg
  · intro M hM
    refine gapped_min_length hpg hwfm M ?_
    rw [mergeIntervals_covers l]
    exact hM
  · decide

theorem c1_merge_minimal_cover_witness :
    (∀ i ∈ [(⟨600, 605⟩ : TimeInterval), ⟨605, 610⟩], i.start ≤ i.end) ∧
    mergeIntervals [(⟨600, 605⟩ : TimeInterval), ⟨605, 610⟩] = [⟨600, 610⟩] :=
  ⟨by decide,
    (c1_merge_minimal_cover [⟨600, 605⟩, ⟨605, 610⟩] (by decide)).2.2.2.2.2⟩

/-- C10: `calculateTotalDuration` is total and returns a non-negative
number on every interval list; an interval whose end is at or before its
start contributes zero to the total rather than reducing it. -/
theorem c10_calculateTotalDuration_total_nonneg :
    (∀ l : List TimeInterval, 0 ≤ calculateTotalDuration l) ∧
    (∀ i : TimeInterval, ∀ l : List TimeInterval, i.«end» ≤ i.start →
      calculateTotalDuration (i :: l) = calculateTotalDuration l) := by
  constructor
  · intro l
    unfold calculateTotalDuration
    apply div_nonneg _ (by norm_num)
    have h : (0 : ℤ) ≤ (l.map fun i => max 0 (differenceInSeconds i.end i.start)).sum := by
      apply List.sum_nonneg
      intro x hx
      obtain ⟨i, _, rfl⟩ := List.mem_map.1 hx
      exact le_max_left 0 _
    exact_mod_cast h
  · intro i l h
    have hq : (i.end - i.start) / 1000 ≤ (0 : ℚ) :=
      div_nonpos_of_nonpos_of_nonneg (sub_nonpos.2 h) (by norm_num)
    have hz : max 0 (differenceInSeconds i.end i.start) = 0 :=
      max_eq_left (jsTrunc_nonpos hq)
    unfold calculateTotalDuration
    rw [List.map_cons, List.sum_cons, hz, zero_add]

theorem c10_witness :
    ((⟨5, 3⟩ : TimeInterval).«end» ≤ (⟨5, 3⟩ : TimeInterval).start) ∧
    calculateTotalDuration [⟨5, 3⟩] = calculateTotalDuration [] :=
  ⟨by norm_num, c10_calculateTotalDuration_total_nonneg.2 ⟨5, 3⟩ [] (by norm_num)⟩

/-- C8 counterexample: `mergeIntervals` sorts the caller's array in place
(`intervals.sort(...)`), so an unsorted input array does not keep the order
of its elements: after the call on `[[1,2],[0,1]]` the array holds
`[[0,1],[1,2]]`. -/
theorem c8_counterexample :
    mergeIntervalsPost [(⟨1, 2⟩ : TimeInterval), ⟨0, 1⟩] ≠
      [(⟨1, 2⟩ : TimeInterval), ⟨0, 1⟩] := by
  decide

/-- C8 amended: after a call to `mergeIntervals` the caller's array holds
the same intervals as a multiset, reordered ascending by start time by the
in-place defensive sort; an array that is already sorted by start is left
unchanged.  (Interval values themselves are not mutated, and the returned
intervals are copies.) -/
theorem c8_merge_post_state (l : List TimeInterval) :
    (mergeIntervalsPost l).Perm l ∧
    List.Sorted startLE (mergeIntervalsPost l) ∧
    (List.Sorted startLE l → mergeIntervalsPost l = l) :=
  ⟨List.perm_insertionSort startLE l, List.sorted_insertionSort startLE l,
    fun h => h.insertionSort_eq⟩

theorem c8_merge_post_state_witness :
    List.Sorted startLE [(⟨0, 1⟩ : TimeInterval), ⟨1, 2⟩] ∧
    mergeIntervalsPost [(⟨0, 1⟩ : TimeInterval), ⟨1, 2⟩] = [⟨0, 1⟩, ⟨1, 2⟩] := by
  have h : List.Sorted startLE [(⟨0, 1⟩ : TimeInterval), ⟨1, 2⟩] := by
    constructor
    · intro b hb
      rcases List.mem_singleton.1 hb with rfl
      show (0 : ℚ) ≤ 1
      norm_num
    · simp [List.sorted_singleton]
  exact ⟨h, (c8_merge_post_state [⟨0, 1⟩, ⟨1, 2⟩]).2.2 h⟩

/-- The exact span length of an interval, in milliseconds. -/
def msLen (i : TimeInterval) : ℚ := i.end - i.start

/-- The exact sum of individual span lengths, in milliseconds. -/
def msSum (l : List TimeInterval) : ℚ := (l.map msLen).sum

/-- The sum of the individual durations (end minus start) over a list of
intervals, expressed in minutes. -/
def rawSumMinutes (l : List TimeInterval) : ℚ := msSum l / 60000

/-- Two intervals do not overlap on a span of positive length; touching at
a single boundary point is allowed. -/
def noPosOverlap (a b : TimeInterval) : Prop := min a.end b.end ≤ max a.start b.start

/-- A timestamp lying on a whole second: an integer number of 1000 ms. -/
def wholeSecond (q : ℚ) : Prop := ∃ k : ℤ, q = 1000 * k

theorem noPosOverlap_symm : ∀ {a b : TimeInterval}, noPosOverlap a b → noPosOverlap b a := by
  intro a b h
  unfold noPosOverlap at h ⊢
  rw [min_comm, max_comm]
  exact h

theorem msSum_nil : msSum [] = 0 := rfl

theorem msSum_cons (i : TimeInterval) (l : List TimeInterval) :
    msSum (i :: l) = msLen i + msSum l := by
  unfold msSum
  rw [List.map_cons, List.sum_cons]

theorem msSum_perm {l₁ l₂ : List TimeInterval} (h : l₁.Perm l₂) : msSum l₁ = msSum l₂ :=
  List.Perm.sum_eq (h.map msLen)

/-- One merge step never increases the total measured length. -/
theorem msLen_merge_step {c n : TimeInterval} (h : n.start ≤ c.end) (hn : n.start ≤ n.end) :
    msLen ⟨c.start, max c.end n.end⟩ ≤ msLen c + msLen n := by
  unfold msLen
  rcases max_cases c.end n.end with ⟨he, _⟩ | ⟨he, _⟩ <;> rw [he] <;> simp only <;> linarith

/-- The merge loop never increases the total measured length. -/
theorem msSum_mergeLoop_le {rest : List TimeInterval} :
    ∀ {c : TimeInterval}, c.start ≤ c.end → (∀ i ∈ rest, i.start ≤ i.end) →
      msSum (mergeLoop c rest) ≤ msLen c + msSum rest := by
  induction rest with
  | nil =>
    intro c _ _
    simp [mergeLoop, msSum_cons, msSum_nil]
  | cons n r ih =>
    intro c hc hr
    have hn : n.start ≤ n.end := hr n (List.mem_cons_self _ _)
    have hr' : ∀ i ∈ r, i.start ≤ i.end := fun i hi => hr i (List.mem_cons_of_mem _ hi)
    rw [mergeLoop_cons]
    split
    · rename_i hin
      calc msSum (mergeLoop ⟨c.start, max c.end n.end⟩ r)
          ≤ msLen ⟨c.start, max c.end n.end⟩ + msSum r :=
            ih (le_trans hc (le_max_left _ _)) hr'
        _ ≤ (msLen c + msLen n) + msSum r := by
            have := msLen_merge_step hin hn
            linarith
        _ = msLen c + msSum (n :: r) := by rw [msSum_cons]; ring
    · rw [msSum_cons]
      have := ih hn hr'
      rw [msSum_cons]
      linarith

/-- On a sorted list of well-formed intervals with no positive-length
pairwise overlap, merging loses no measured length. -/
theorem msSum_mergeLoop_eq {rest : List TimeInterval} :
    ∀ {c : TimeInterval}, List.Sorted startLE (c :: rest) →
      (∀ i ∈ c :: rest, i.start ≤ i.end) →
      List.Pairwise noPosOverlap (c :: rest) →
      msSum (mergeLoop c rest) = msLen c + msSum rest := by
  induction rest with
  | nil =>
    intro c _ _ _
    simp [mergeLoop, msSum_cons, msSum_nil]
  | cons n r ih =>
    intro c hs hwf hp
    have hcn_le : c.start ≤ n.start := List.rel_of_sorted_cons hs n (List.mem_cons_self _ _)
    have hsr : List.Sorted startLE (n :: r) := hs.of_cons
    have hnr : ∀ i ∈ r, n.start ≤ i.start := fun i hi => List.rel_of_sorted_cons hsr i hi
    have hcr : ∀ i ∈ r, c.start ≤ i.start :=
      fun i hi => List.rel_of_sorted_cons hs i (List.mem_cons_of_mem _ hi)
    have hwc : c.start ≤ c.end := hwf c (List.mem_cons_self _ _)
    have hwn : n.start ≤ n.end := hwf n (List.mem_cons_of_mem _ (List.mem_cons_self _ _))
    have hwr : ∀ i ∈ r, i.start ≤ i.end :=
      fun i hi => hwf i (List.mem_cons_of_mem _ (List.mem_cons_of_mem _ hi))
    have hpcn : noPosOverlap c n := (List.pairwise_cons.1 hp).1 n (List.mem_cons_self _ _)
    have hpnr : List.Pairwise noPosOverlap (n :: r) := (List.pairwise_cons.1 hp).2
    rw [mergeLoop_cons]
    split
    · rename_i hin
      have hmin : min c.end n.end ≤ n.start := by
        have h := hpcn
        unfold noPosOverlap at h
        rwa [max_eq_right hcn_le] at h
      rcases le_or_lt n.end c.end with hne | hlt
      · have hnn : n.end = n.start := by
          rw [min_eq_right hne] at hmin
          exact le_antisymm hmin hwn
        have hc' : (⟨c.start, max c.end n.end⟩ : TimeInterval) = c := by
          rw [max_eq_left hne]
        rw [hc']
        have hsub : (c :: r).Sublist (c :: n :: r) :=
          List.Sublist.cons₂ c ((List.Sublist.refl r).cons n)
        have h1 : List.Sorted startLE (c :: r) := List.Pairwise.sublist hsub hs
        have h2 : ∀ i ∈ c :: r, i.start ≤ i.end := by
          intro i hi
          rcases List.mem_cons.1 hi with rfl | hi
          · exact hwc
          · exact hwr i hi
        have h3 : List.Pairwise noPosOverlap (c :: r) := List.Pairwise.sublist hsub hp
        have hlen : msLen n = 0 := by
          unfold msLen
          rw [hnn]
          ring
        rw [ih h1 h2 h3, msSum_cons, hlen]
        ring
      · have hns : n.start = c.end := by
          rw [min_eq_left hlt.le] at hmin
          exact le_antisymm hin hmin
        rw [max_eq_right hlt.le]
        have h1 : List.Sorted startLE ((⟨c.start, n.end⟩ : TimeInterval) :: r) :=
          List.sorted_cons.2 ⟨fun b hb => hcr b hb, hsr.of_cons⟩
        have h2 : ∀ i ∈ (⟨c.start, n.end⟩ : TimeInterval) :: r, i.start ≤ i.end := by
          intro i hi
          rcases List.mem_cons.1 hi with rfl | hi
          · exact le_trans hwc hlt.le
          · exact hwr i hi
        have h3 : List.Pairwise noPosOverlap ((⟨c.start, n.end⟩ : TimeInterval) :: r) := by
          refine List.pairwise_cons.2 ⟨?_, (List.pairwise_cons.1 hpnr).2⟩
          intro b hb
          have hnb : noPosOverlap n b := (List.pairwise_cons.1 hpnr).1 b hb
          unfold noPosOverlap at hnb
          rw [max_eq_right (hnr b hb)] at hnb
          show min n.end b.end ≤ max c.start b.start
          rw [max_eq_right (hcr b hb)]
          exact hnb
        have hlen : msLen ⟨c.start, n.end⟩ = msLen c + msLen n := by
          unfold msLen
          simp only
          rw [hns]
          ring
        rw [ih h1 h2 h3, msSum_cons, hlen]
        ring
    · rw [msSum_cons,
        ih hsr (fun i hi => hwf i (List.mem_cons_of_mem _ hi)) hpnr, msSum_cons]

/-- On a sorted list of well-formed intervals containing a positive-length
pairwise overlap, merging strictly loses measured length. -/
theorem msSum_mergeLoop_lt {rest : List TimeInterval} :
    ∀ {c : TimeInterval}, List.Sorted startLE (c :: rest) →
      (∀ i ∈ c :: rest, i.start ≤ i.end) →
      ¬ List.Pairwise noPosOverlap (c :: rest) →
      msSum (mergeLoop c rest) < msLen c + msSum rest := by
  induction rest with
  | nil =>
    intro c _ _ hp
    exact absurd (List.pairwise_singleton _ _) hp
  | cons n r ih =>
    intro c hs hwf hp
    have hcn_le : c.start ≤ n.start := List.rel_of_sorted_cons hs n (List.mem_cons_self _ _)
    have hsr : List.Sorted startLE (n :: r) := hs.of_cons
    have hnr : ∀ i ∈ r, n.start ≤ i.start := fun i hi => List.rel_of_sorted_cons hsr i hi
    have hcr : ∀ i ∈ r, c.start ≤ i.start :=
      fun i hi => List.rel_of_sorted_cons hs i (List.mem_cons_of_mem _ hi)
    have hwc : c.start ≤ c.end := hwf c (List.mem_cons_self _ _)
    have hwn : n.start ≤ n.end := hwf n (List.mem_cons_of_mem _ (List.mem_cons_self _ _))
    have hwr : ∀ i ∈ r, i.start ≤ i.end :=
      fun i hi => hwf i (List.mem_cons_of_mem _ (List.mem_cons_of_mem _ hi))
    by_cases hpcn : noPosOverlap c n
    · by_cases hin : n.start ≤ c.end
      · rw [mergeLoop_cons, if_pos hin]
        have hviol : ¬ List.Pairwise noPosOverlap
            ((⟨c.start, max c.end n.end⟩ : TimeInterval) :: r) := by
          intro hgood
          apply hp
          refine List.pairwise_cons.2 ⟨?_, ?_⟩
          · intro b hb
            rcases List.mem_cons.1 hb with rfl | hb
            · exact hpcn
            · have h1 : min (max c.end n.end) b.end ≤ max c.start b.start :=
                (List.pairwise_cons.1 hgood).1 b hb
              show min c.end b.end ≤ max c.start b.start
              exact le_trans (min_le_min (le_max_left _ _) (le_refl _)) h1
          · refine List.pairwise_cons.2 ⟨?_, (List.pairwise_cons.1 hgood).2⟩
            intro b hb
            have h1 : min (max c.end n.end) b.end ≤ max c.start b.start :=
              (List.pairwise_cons.1 hgood).1 b hb
            rw [max_eq_right (hcr b hb)] at h1
            show min n.end b.end ≤ max n.start b.start
            rw [max_eq_right (hnr b hb)]
            exact le_trans (min_le_min (le_max_right _ _) (le_refl _)) h1
        have h1 : List.Sorted startLE ((⟨c.start, max c.end n.end⟩ : TimeInterval) :: r) :=
          List.sorted_cons.2 ⟨fun b hb => hcr b hb, hsr.of_cons⟩
        have h2 : ∀ i ∈ (⟨c.start, max c.end n.end⟩ : TimeInterval) :: r,
            i.start ≤ i.end := by
          intro i hi
          rcases List.mem_cons.1 hi with rfl | hi
          · exact le_trans hwc (le_max_left _ _)
          · exact hwr i hi
        have hlt := ih h1 h2 hviol
        have hstep := msLen_merge_step hin hwn
        rw [msSum_cons]
        linarith
      · rw [mergeLoop_cons, if_neg hin]
        have hviol : ¬ List.Pairwise noPosOverlap (n :: r) := by
          intro hgood
          apply hp
          refine List.pairwise_cons.2 ⟨?_, hgood⟩
          intro b hb
          rcases List.mem_cons.1 hb with rfl | hb
          · exact hpcn
          · show min c.end b.end ≤ max c.start b.start
            rw [max_eq_right (hcr b hb)]
            exact le_trans (min_le_left _ _)
              (le_trans (not_le.1 hin).le (hnr b hb))
        have hlt := ih hsr (fun i hi => hwf i (List.mem_cons_of_mem _ hi)) hviol
        rw [msSum_cons, msSum_cons]
        linarith
    · have hov : n.start < min c.end n.end := by
        have h := not_le.1 hpcn
        rwa [max_eq_right hcn_le] at h
      have hin : n.start ≤ c.end := le_trans hov.le (min_le_left _ _)
      rw [mergeLoop_cons, if_pos hin]
      have hS1 := msSum_mergeLoop_le (c := ⟨c.start, max c.end n.end⟩)
        (le_trans hwc (le_max_left _ _)) hwr
      have hstep : msLen ⟨c.start, max c.end n.end⟩ < msLen c + msLen n := by
        unfold msLen
        rcases max_cases c.end n.end with ⟨he, _⟩ | ⟨he, _⟩ <;> rw [he] <;> simp only
        · have : n.start < n.end := lt_of_lt_of_le hov (min_le_right _ _)
          linarith
        · have : n.start < c.end := lt_of_lt_of_le hov (min_le_left _ _)
          linarith
      rw [msSum_cons]
      linarith

theorem msSum_merge_le {l : List TimeInterval} (hwf : ∀ i ∈ l, i.start ≤ i.end) :
    msSum (mergeIntervals l) ≤ msSum l := by
  cases h : List.insertionSort startLE l with
  | nil =>
    have hp := List.perm_insertionSort startLE l
    rw [h] at hp
    have hl : l = [] := List.Perm.eq_nil hp.symm
    subst hl
    exact le_refl _
  | cons f r =>
    have hp := List.perm_insertionSort startLE l
    rw [h] at hp
    have hwf' : ∀ i ∈ f :: r, i.start ≤ i.end := fun i hi => hwf i (hp.mem_iff.1 hi)
    rw [mergeIntervals_eq_mergeLoop h]
    calc msSum (mergeLoop f r)
        ≤ msLen f + msSum r :=
          msSum_mergeLoop_le (hwf' f (List.mem_cons_self _ _))
            fun i hi => hwf' i (List.mem_cons_of_mem _ hi)
      _ = msSum (f :: r) := (msSum_cons _ _).symm
      _ = msSum l := msSum_perm hp

theorem pairwise_noPosOverlap_perm {l₁ l₂ : List TimeInterval} (h : l₁.Perm l₂) :
    List.Pairwise noPosOverlap l₁ ↔ List.Pairwise noPosOverlap l₂ :=
  h.pairwise_iff fun hab => noPosOverlap_symm hab

theorem msSum_merge_eq_iff {l : List TimeInterval} (hwf : ∀ i ∈ l, i.start ≤ i.end) :
    msSum (mergeIntervals l) = msSum l ↔ List.Pairwise noPosOverlap l := by
  cases h : List.insertionSort startLE l with
  | nil =>
    have hp := List.perm_insertionSort startLE l
    rw [h] at hp
    have hl : l = [] := List.Perm.eq_nil hp.symm
    subst hl
    exact ⟨fun _ => List.Pairwise.nil, fun _ => rfl⟩
  | cons f r =>
    have hp := List.perm_insertionSort startLE l
    rw [h] at hp
    have hs := List.sorted_insertionSort startLE l
    rw [h] at hs
    have hwf' : ∀ i ∈ f :: r, i.start ≤ i.end := fun i hi => hwf i (hp.mem_iff.1 hi)
    have hcons : msSum (f :: r) = msSum l := msSum_perm hp
    rw [mergeIntervals_eq_mergeLoop h]
    constructor
    · intro heq
      by_contra hnp
      have hnp' : ¬ List.Pairwise noPosOverlap (f :: r) :=
        fun hgood => hnp ((pairwise_noPosOverlap_perm hp).1 hgood)
      have hlt := msSum_mergeLoop_lt hs hwf' hnp'
      rw [msSum_cons] at hcons
      linarith
    · intro hpw
      have hpw' : List.Pairwise noPosOverlap (f :: r) := (pairwise_noPosOverlap_perm hp).2 hpw
      rw [msSum_mergeLoop_eq hs hwf' hpw', ← msSum_cons]
      exact hcons

theorem calculateTotalDuration_cons (i : TimeInterval) (l : List TimeInterval) :
    calculateTotalDuration (i :: l) =
      ((max 0 (differenceInSeconds i.end i.start) : ℤ) : ℚ) / 60 +
        calculateTotalDuration l := by
  unfold calculateTotalDuration
  rw [List.map_cons, List.sum_cons]
  push_cast
  ring

theorem calcTerm_le {i : TimeInterval} (h : i.start ≤ i.end) :
    ((max 0 (differenceInSeconds i.end i.start) : ℤ) : ℚ) / 60 ≤ msLen i / 60000 := by
  have hq : 0 ≤ (i.end - i.start) / 1000 := div_nonneg (sub_nonneg.2 h) (by norm_num)
  have h1 : (jsTrunc ((i.end - i.start) / 1000) : ℚ) ≤ (i.end - i.start) / 1000 :=
    jsTrunc_le hq
  have h2 : max 0 (differenceInSeconds i.end i.start) = differenceInSeconds i.end i.start :=
    max_eq_right (jsTrunc_nonneg hq)
  rw [h2]
  unfold differenceInSeconds msLen
  linarith

theorem calcTerm_eq {i : TimeInterval} (h : i.start ≤ i.end)
    (hws : wholeSecond i.start) (hwe : wholeSecond i.end) :
    ((max 0 (differenceInSeconds i.end i.start) : ℤ) : ℚ) / 60 = msLen i / 60000 := by
  obtain ⟨k1, hk1⟩ := hws
  obtain ⟨k2, hk2⟩ := hwe
  have hq : (i.end - i.start) / 1000 = ((k2 - k1 : ℤ) : ℚ) := by
    rw [hk1, hk2]
    push_cast
    ring
  have hd : differenceInSeconds i.end i.start = k2 - k1 := by
    unfold differenceInSeconds
    rw [hq, jsTrunc_intCast]
  have hk : (k1 : ℚ) ≤ (k2 : ℚ) := by
    rw [hk1, hk2] at h
    linarith
  have hk' : k1 ≤ k2 := by exact_mod_cast hk
  rw [hd, max_eq_right (sub_nonneg.2 hk')]
  unfold msLen
  rw [hk1, hk2]
  push_cast
  ring

theorem calcTotal_le_msSum {l : List TimeInterval} (hwf : ∀ i ∈ l, i.start ≤ i.end) :
    calculateTotalDuration l ≤ msSum l / 60000 := by
  induction l with
  | nil =>
    show calculateTotalDuration [] ≤ msSum [] / 60000
    rw [msSum_nil]
    norm_num [calculateTotalDuration]
  | cons i l ih =>
    rw [calculateTotalDuration_cons, msSum_cons]
    have h1 := calcTerm_le (hwf i (List.mem_cons_self _ _))
    have h2 := ih fun j hj => hwf j (List.mem_cons_of_mem _ hj)
    have : (msLen i + msSum l) / 60000 = msLen i / 60000 + msSum l / 60000 := by ring
    linarith

theorem calcTotal_eq_msSum {l : List TimeInterval} (hwf : ∀ i ∈ l, i.start ≤ i.end)
    (hws : ∀ i ∈ l, wholeSecond i.start ∧ wholeSecond i.end) :
    calculateTotalDuration l = msSum l / 60000 := by
  induction l with
  | nil =>
    show calculateTotalDuration [] = msSum [] / 60000
    rw [msSum_nil]
    norm_num [calculateTotalDuration]
  | cons i l ih =>
    rw [calculateTotalDuration_cons, msSum_cons]
    rw [calcTerm_eq (hwf i (List.mem_cons_self _ _))
      (hws i (List.mem_cons_self _ _)).1 (hws i (List.mem_cons_self _ _)).2]
    rw [ih (fun j hj => hwf j (List.mem_cons_of_mem _ hj))
      fun j hj => hws j (List.mem_cons_of_mem _ hj)]
    ring

/-- `mergeLoop` only ever uses endpoints of input intervals. -/
theorem mergeLoop_endpoints (P : ℚ → Prop) {current : TimeInterval}
    {rest : List TimeInterval} (hc : P current.start ∧ P current.end)
    (hr : ∀ i ∈ rest, P i.start ∧ P i.end) :
    ∀ i ∈ mergeLoop current rest, P i.start ∧ P i.end := by
  induction rest generalizing current with
  | nil => simpa [mergeLoop] using hc
  | cons n r ih =>
    rw [mergeLoop_cons]
    split
    · refine ih ⟨hc.1, ?_⟩ fun i hi => hr i (List.mem_cons_of_mem _ hi)
      rcases max_cases current.end n.end with ⟨he, _⟩ | ⟨he, _⟩
      · rw [he]
        exact hc.2
      · rw [he]
        exact (hr n (List.mem_cons_self _ _)).2
    · intro i hi
      rcases List.mem_cons.1 hi with rfl | hi
      · exact hc
      · exact ih (hr n (List.mem_cons_self _ _))
          (fun j hj => hr j (List.mem_cons_of_mem _ hj)) i hi

theorem mergeIntervals_endpoints (P : ℚ → Prop) {l : List TimeInterval}
    (h : ∀ i ∈ l, P i.start ∧ P i.end) :
    ∀ i ∈ mergeIntervals l, P i.start ∧ P i.end := by
  cases hsort : List.insertionSort startLE l with
  | nil =>
    have hp := List.perm_insertionSort startLE l
    rw [hsort] at hp
    have hl : l = [] := List.Perm.eq_nil hp.symm
    subst hl
    simp [mergeIntervals]
  | cons f r =>
    have hp := List.perm_insertionSort startLE l
    rw [hsort] at hp
    have h' : ∀ i ∈ f :: r, P i.start ∧ P i.end := fun i hi => h i (hp.mem_iff.1 hi)
    rw [mergeIntervals_eq_mergeLoop hsort]
    exact mergeLoop_endpoints P (h' f (List.mem_cons_self _ _))
      fun i hi => h' i (List.mem_cons_of_mem _ hi)

/-- C2 counterexample: for the touching intervals [0,300000] and
[300000,600000] (milliseconds; five minutes each), the merged total equals
the raw sum of the individual durations — 10 minutes on both sides — even
though the two intervals touch, so "equality iff no two intervals overlap
or touch" fails: touching intervals lose no covered time. -/
theorem c2_counterexample :
    calculateTotalDuration (mergeIntervals [(⟨0, 300000⟩ : TimeInterval), ⟨300000, 600000⟩]) =
      rawSumMinutes [(⟨0, 300000⟩ : TimeInterval), ⟨300000, 600000⟩] ∧
    (⟨0, 300000⟩ : TimeInterval).«end» = (⟨300000, 600000⟩ : TimeInterval).start := by
  refine ⟨?_, rfl⟩
  have hm : mergeIntervals [(⟨0, 300000⟩ : TimeInterval), ⟨300000, 600000⟩] =
      [⟨0, 600000⟩] := by decide
  rw [hm]
  have hwf : ∀ i ∈ [(⟨0, 600000⟩ : TimeInterval)], i.start ≤ i.end := by
    intro i hi
    rcases List.mem_singleton.1 hi with rfl
    show (0 : ℚ) ≤ 600000
    norm_num
  have hws : ∀ i ∈ [(⟨0, 600000⟩ : TimeInterval)],
      wholeSecond i.start ∧ wholeSecond i.end := by
    intro i hi
    rcases List.mem_singleton.1 hi with rfl
    exact ⟨⟨0, by norm_num⟩, ⟨600, by norm_num⟩⟩
  rw [calcTotal_eq_msSum hwf hws]
  unfold rawSumMinutes msSum msLen
  norm_num

/-- C2 (amended): for every list of well-formed intervals, the merged total
duration is at most the sum of the individual durations (end minus start,
in minutes).  When every timestamp lies on a whole second (so the
second-level truncation in `calculateTotalDuration` is exact), equality
holds if and only if no two intervals overlap on a span of positive
length — touching at a boundary preserves equality, so "or touch" in the
original claim is too strong, and sub-second durations can break equality
even without any overlap. -/
theorem c2_coverage_conservation (X : List TimeInterval)
    (hwf : ∀ i ∈ X, i.start ≤ i.«end») :
    calculateTotalDuration (mergeIntervals X) ≤ rawSumMinutes X ∧
    ((∀ i ∈ X, wholeSecond i.start ∧ wholeSecond i.«end») →
      (calculateTotalDuration (mergeIntervals X) = rawSumMinutes X ↔
        List.Pairwise noPosOverlap X)) := by
  have hwfm := mergeIntervals_wf hwf
  constructor
  · calc calculateTotalDuration (mergeIntervals X)
        ≤ msSum (mergeIntervals X) / 60000 := calcTotal_le_msSum hwfm
      _ ≤ msSum X / 60000 := by
          have := msSum_merge_le hwf
          linarith
      _ = rawSumMinutes X := rfl
  · intro hws
    have hwsm := mergeIntervals_endpoints wholeSecond hws
    rw [calcTotal_eq_msSum hwfm hwsm]
    unfold rawSumMinutes
    constructor
    · intro h
      apply (msSum_merge_eq_iff hwf).1
      have h60 : (60000 : ℚ) ≠ 0 := by norm_num
      field_simp at h
      exact h
    · intro hpw
      rw [(msSum_merge_eq_iff hwf).2 hpw]

theorem c2_witness :
    (∀ i ∈ [(⟨0, 60000⟩ : TimeInterval)], i.start ≤ i.«end») ∧
    calculateTotalDuration (mergeIntervals [(⟨0, 60000⟩ : TimeInterval)]) ≤
      rawSumMinutes [(⟨0, 60000⟩ : TimeInterval)] := by
  have hyp : ∀ i ∈ [(⟨0, 60000⟩ : TimeInterval)], i.start ≤ i.«end» := by
    intro i hi
    rcases List.mem_singleton.1 hi with rfl
    show (0 : ℚ) ≤ 60000
    norm_num
  exact ⟨hyp, (c2_coverage_conservation _ hyp).1⟩

/-- src/types/index.ts: the closed activity-type enumeration. -/
inductive ActivityType where
  | WebPage
  | Application
  | Idle
  | Other
deriving DecidableEq, Repr

/-- src/types/index.ts: the canonical Activity record (fields used by the
engine; optional descriptive fields are `Option`s, timestamps are
millisecond rationals as for `TimeInterval`). -/
structure Activity where
  id : String
  type : ActivityType
  title : String
  startTime : ℚ
  endTime : ℚ
  durationMinutes : ℚ
  username : Option String := none
  applicationName : Option String := none
  url : Option String := none
  category : Option String := none
deriving DecidableEq, Repr

/-- ActivityTypeBreakdownChart: `activities.filter(act => act.type !== Idle)`. -/
def nonIdleActivities (activities : List Activity) : List Activity :=
  activities.filter fun act => act.type ≠ ActivityType.Idle

/-- ActivityTypeBreakdownChart: `activities.filter(act => act.type === Idle)`. -/
def idleActivities (activities : List Activity) : List Activity :=
  activities.filter fun act => act.type = ActivityType.Idle

/-- ActivityTypeBreakdownChart: `.map(act => ({start, end}))`; the
`instanceof Date` guard is always satisfied in the typed model. -/
def toIntervalList (activities : List Activity) : List TimeInterval :=
  activities.map fun act => ⟨act.startTime, act.endTime⟩

/-- ActivityTypeBreakdownChart step 1: true total active minutes from the
merged non-idle intervals. -/
def totalActiveMinutes (activities : List Activity) : ℚ :=
  calculateTotalDuration (mergeIntervals (toIntervalList (nonIdleActivities activities)))

/-- ActivityTypeBreakdownChart step 2: `rawTypeDurations[act.type] += act.durationMinutes`
accumulated over the non-idle activities, read back per type. -/
def rawTypeDuration (activities : List Activity) (t : ActivityType) : ℚ :=
  (((nonIdleActivities activities).filter fun act => act.type = t).map
    fun act => act.durationMinutes).sum

/-- ActivityTypeBreakdownChart step 2: `totalRawDuration += act.durationMinutes`. -/
def totalRawDuration (activities : List Activity) : ℚ :=
  ((nonIdleActivities activities).map fun act => act.durationMinutes).sum

/-- The key order of the `rawTypeDurations` dictionary: JavaScript object
keys enumerate in insertion order, i.e. order of first occurrence of each
non-idle type. -/
def entryOrder (activities : List Activity) : List ActivityType :=
  (nonIdleActivities activities).foldl
    (fun acc act => if act.type ∈ acc then acc else acc ++ [act.type]) []

/-- ActivityTypeBreakdownChart step 3: the proportional allocation loop.
Runs only when `totalRawDuration > 0`; for each dictionary entry with a
positive raw duration, allocates
`Math.round(rawDuration / totalRawDuration * totalActiveMinutes)` and keeps
it only when positive.  When `totalRawDuration = 0` but
`totalActiveMinutes > 0` the source merely logs a console warning and
produces an empty summary. -/
def allocationSummaries (activities : List Activity) : List (ActivityType × ℚ) :=
  if 0 < totalRawDuration activities then
    (entryOrder activities).filterMap fun t =>
      let rawDuration := rawTypeDuration activities t
      if 0 < rawDuration then
        let finalDuration : ℤ :=
          round (rawDuration / totalRawDuration activities * totalActiveMinutes activities)
        if 0 < finalDuration then some (t, (finalDuration : ℚ)) else none
      else none
  else []

/-- ActivityTypeBreakdownChart steps 4-5: merged idle minutes. -/
def totalIdleMinutes (activities : List Activity) : ℚ :=
  calculateTotalDuration (mergeIntervals (toIntervalList (idleActivities activities)))

/-- ActivityTypeBreakdownChart: the final `data` array — the proportional
non-idle summaries, the idle entry when it has positive duration, filtered
again to positive durations. -/
def breakdownData (activities : List Activity) : List (ActivityType × ℚ) :=
  (allocationSummaries activities ++
    (if 0 < totalIdleMinutes activities
      then [(ActivityType.Idle, totalIdleMinutes activities)] else [])).filter
    fun entry => 0 < entry.2

/-- The labels that take part in an allocation run: dictionary entries with
positive raw duration. -/
def allocationLabels (activities : List Activity) : List ActivityType :=
  (entryOrder activities).filter fun t => 0 < rawTypeDuration activities t

theorem calcTotal_nonneg (l : List TimeInterval) : 0 ≤ calculateTotalDuration l := by
  unfold calculateTotalDuration
  apply div_nonneg _ (by norm_num)
  have h : (0 : ℤ) ≤ (l.map fun i => max 0 (differenceInSeconds i.end i.start)).sum := by
    apply List.sum_nonneg
    intro x hx
    obtain ⟨i, _, rfl⟩ := List.mem_map.1 hx
    exact le_max_left 0 _
  exact_mod_cast h

/-- The dictionary key order is duplicate-free. -/
theorem entryOrder_fold_nodup (l : List Activity) :
    ∀ acc : List ActivityType, acc.Nodup →
      (l.foldl (fun acc act => if act.type ∈ acc then acc else acc ++ [act.type]) acc).Nodup := by
  induction l with
  | nil => intro acc h; exact h
  | cons a l ih =>
    intro acc h
    rw [List.foldl_cons]
    split
    · exact ih acc h
    · rename_i hmem
      refine ih _ (h.append (List.nodup_singleton _) (List.disjoint_singleton.2 hmem))

theorem entryOrder_fold_mem (l : List Activity) :
    ∀ (acc : List ActivityType) (t : ActivityType),
      (t ∈ l.foldl (fun acc act => if act.type ∈ acc then acc else acc ++ [act.type]) acc ↔
        t ∈ acc ∨ ∃ a ∈ l, a.type = t) := by
  induction l with
  | nil => intro acc t; simp
  | cons a l ih =>
    intro acc t
    rw [List.foldl_cons]
    split
    · rename_i hmem
      rw [ih]
      constructor
      · rintro (h | h)
        · exact Or.inl h
        · exact Or.inr (by obtain ⟨b, hb, hbt⟩ := h; exact ⟨b, List.mem_cons_of_mem _ hb, hbt⟩)
      · rintro (h | ⟨b, hb, hbt⟩)
        · exact Or.inl h
        · rcases List.mem_cons.1 hb with rfl | hb
          · exact Or.inl (hbt ▸ hmem)
          · exact Or.inr ⟨b, hb, hbt⟩
    · rename_i hmem
      rw [ih]
      constructor
      · rintro (h | h)
        · rcases List.mem_append.1 h with h | h
          · exact Or.inl h
          · exact Or.inr ⟨a, List.mem_cons_self _ _, (List.mem_singleton.1 h).symm⟩
        · exact Or.inr (by obtain ⟨b, hb, hbt⟩ := h; exact ⟨b, List.mem_cons_of_mem _ hb, hbt⟩)
      · rintro (h | ⟨b, hb, hbt⟩)
        · exact Or.inl (List.mem_append_left _ h)
        · rcases List.mem_cons.1 hb with rfl | hb
          · exact Or.inl (List.mem_append_right _ (List.mem_singleton.2 hbt.symm))
          · exact Or.inr ⟨b, hb, hbt⟩

theorem entryOrder_nodup (activities : List Activity) : (entryOrder activities).Nodup :=
  entryOrder_fold_nodup _ [] List.nodup_nil

theorem entryOrder_mem (activities : List Activity) (t : ActivityType) :
    t ∈ entryOrder activities ↔ ∃ a ∈ nonIdleActivities activities, a.type = t := by
  unfold entryOrder
  rw [entryOrder_fold_mem]
  simp

theorem list_sum_map_add {α : Type} (l : List α) (f g : α → ℚ) :
    (l.map fun x => f x + g x).sum = (l.map f).sum + (l.map g).sum := by
  induction l with
  | nil => simp
  | cons a l ih =>
    simp only [List.map_cons, List.sum_cons, ih]
    ring

theorem list_sum_ite_zero (ts : List ActivityType) (t0 : ActivityType) (d : ℚ)
    (h : t0 ∉ ts) : (ts.map fun t => if t0 = t then d else 0).sum = 0 := by
  induction ts with
  | nil => simp
  | cons s ts ih =>
    have hne : t0 ≠ s := fun he => h (he ▸ List.mem_cons_self _ _)
    simp only [List.map_cons, List.sum_cons, if_neg hne]
    rw [ih fun hm => h (List.mem_cons_of_mem _ hm)]
    ring

theorem list_sum_ite_single (ts : List ActivityType) (t0 : ActivityType) (d : ℚ)
    (hnd : ts.Nodup) (h : t0 ∈ ts) :
    (ts.map fun t => if t0 = t then d else 0).sum = d := by
  induction ts with
  | nil => cases h
  | cons s ts ih =>
    rcases List.mem_cons.1 h with rfl | hmem
    · simp only [List.map_cons, List.sum_cons, if_pos rfl]
      rw [list_sum_ite_zero ts t0 d (List.nodup_cons.1 hnd).1]
      simp
    · have hne : t0 ≠ s := fun he => (List.nodup_cons.1 hnd).1 (he ▸ hmem)
      simp only [List.map_cons, List.sum_cons, if_neg hne]
      rw [ih (List.nodup_cons.1 hnd).2 hmem]
      ring

/-- Regrouping raw durations by type: summing the per-type raw sums over
any duplicate-free list of types containing every occurring type recovers
the grand raw total. -/
theorem sum_rawOf (A : List Activity) (ts : List ActivityType) (hnd : ts.Nodup)
    (hall : ∀ a ∈ A, a.type ∈ ts) :
    (ts.map fun t => ((A.filter fun a => a.type = t).map fun a => a.durationMinutes).sum).sum
      = (A.map fun a => a.durationMinutes).sum := by
  induction A with
  | nil => simp
  | cons a A ih =>
    have hstep : ∀ t : ActivityType,
        (((a :: A).filter fun x => x.type = t).map fun x => x.durationMinutes).sum =
          (if a.type = t then a.durationMinutes else 0) +
            ((A.filter fun x => x.type = t).map fun x => x.durationMinutes).sum := by
      intro t
      by_cases h : a.type = t
      · simp [List.filter_cons, h]
      · simp [List.filter_cons, h]
    rw [List.map_congr_left fun t _ => hstep t, list_sum_map_add,
      list_sum_ite_single ts a.type a.durationMinutes hnd (hall a (List.mem_cons_self _ _)),
      ih fun b hb => hall b (List.mem_cons_of_mem _ hb)]
    simp

/-- C5 counterexample: a single non-idle activity spanning 30 seconds with
`durationMinutes = 0` has merged active time 1/2 minute, yet the produced
breakdown data is empty — no entry (and no "unattributed" label) carries
the nonzero merged active time; the source only logs a console warning. -/
theorem c5_counterexample :
    breakdownData [⟨"a", ActivityType.WebPage, "t", 0, 30000, 0, none, none, none, none⟩]
      = [] ∧
    0 < totalActiveMinutes
      [⟨"a", ActivityType.WebPage, "t", 0, 30000, 0, none, none, none, none⟩] := by
  have hraw : totalRawDuration
      [(⟨"a", ActivityType.WebPage, "t", 0, 30000, 0, none, none, none, none⟩ : Activity)]
        = 0 := by
    simp [totalRawDuration, nonIdleActivities]
  have hidlel : idleActivities
      [(⟨"a", ActivityType.WebPage, "t", 0, 30000, 0, none, none, none, none⟩ : Activity)]
        = [] := by
    simp [idleActivities]
  have hidle : totalIdleMinutes
      [(⟨"a", ActivityType.WebPage, "t", 0, 30000, 0, none, none, none, none⟩ : Activity)]
        = 0 := by
    unfold totalIdleMinutes toIntervalList
    rw [hidlel]
    norm_num [calculateTotalDuration, mergeIntervals]
  have hactive : totalActiveMinutes
      [(⟨"a", ActivityType.WebPage, "t", 0, 30000, 0, none, none, none, none⟩ : Activity)]
        = 1 / 2 := by
    unfold totalActiveMinutes
    have h1 : toIntervalList (nonIdleActivities
        [(⟨"a", ActivityType.WebPage, "t", 0, 30000, 0, none, none, none, none⟩ : Activity)])
          = [⟨0, 30000⟩] := by
      simp [toIntervalList, nonIdleActivities]
    rw [h1]
    have h2 : mergeIntervals [(⟨0, 30000⟩ : TimeInterval)] = [⟨0, 30000⟩] := by decide
    rw [h2]
    norm_num [calculateTotalDuration, differenceInSeconds, jsTrunc, Int.floor_eq_iff]
  constructor
  · unfold breakdownData allocationSummaries
    rw [hraw, hidle]
    norm_num
  · rw [hactive]
    norm_num

/-- C5 (amended): when the proportional denominator `totalRawDuration` is
not positive, the allocation loop does not run at all: the non-idle
summaries are empty and the breakdown data reduces to the idle entry alone
(or nothing) — the merged active non-idle time, even when positive, is
silently absent from the produced data; the source only emits a console
warning, with no "unattributed" entry for the caller to display. -/
theorem c5_degenerate_allocation (activities : List Activity)
    (h : totalRawDuration activities ≤ 0) :
    allocationSummaries activities = [] ∧
    breakdownData activities =
      (if 0 < totalIdleMinutes activities
        then [(ActivityType.Idle, totalIdleMinutes activities)] else []) := by
  have halloc : allocationSummaries activities = [] := by
    unfold allocationSummaries
    rw [if_neg (not_lt.2 h)]
  refine ⟨halloc, ?_⟩
  unfold breakdownData
  rw [halloc, List.nil_append]
  split
  · rename_i hidle
    simp [List.filter, hidle]
  · rfl

theorem c5_witness :
    totalRawDuration [(⟨"a", ActivityType.WebPage, "t", 0, 30000, 0,
      none, none, none, none⟩ : Activity)] ≤ 0 ∧
    allocationSummaries [(⟨"a", ActivityType.WebPage, "t", 0, 30000, 0,
      none, none, none, none⟩ : Activity)] = [] := by
  have h : totalRawDuration [(⟨"a", ActivityType.WebPage, "t", 0, 30000, 0,
      none, none, none, none⟩ : Activity)] ≤ 0 := by
    simp [totalRawDuration, nonIdleActivities]
  exact ⟨h, (c5_degenerate_allocation _ h).1⟩

theorem sum_filterMap_snd (ts : List ActivityType)
    (F : ActivityType → Option (ActivityType × ℚ)) (g : ActivityType → ℚ)
    (hg : ∀ t, (match F t with | none => 0 | some e => e.2) = g t) :
    ((ts.filterMap F).map fun e => e.2).sum = (ts.map g).sum := by
  induction ts with
  | nil => simp
  | cons t ts ih =>
    rw [List.filterMap_cons]
    have hgt := hg t
    cases hF : F t with
    | none =>
      rw [hF] at hgt
      simp only at hgt
      rw [List.map_cons, List.sum_cons, ih, ← hgt, zero_add]
    | some e =>
      rw [hF] at hgt
      simp only at hgt
      rw [List.map_cons, List.map_cons, List.sum_cons, List.sum_cons, ih, hgt]

theorem list_abs_sum_sub_le (ts : List ActivityType) (f g b : ActivityType → ℚ)
    (h : ∀ t ∈ ts, |f t - g t| ≤ b t) :
    |(ts.map f).sum - (ts.map g).sum| ≤ (ts.map b).sum := by
  induction ts with
  | nil => simp
  | cons t ts ih =>
    simp only [List.map_cons, List.sum_cons]
    have h1 : f t + (ts.map f).sum - (g t + (ts.map g).sum) =
        (f t - g t) + ((ts.map f).sum - (ts.map g).sum) := by ring
    rw [h1]
    calc |(f t - g t) + ((ts.map f).sum - (ts.map g).sum)|
        ≤ |f t - g t| + |(ts.map f).sum - (ts.map g).sum| := abs_add _ _
      _ ≤ b t + (ts.map b).sum := by
          have h2 := h t (List.mem_cons_self _ _)
          have h3 := ih fun s hs => h s (List.mem_cons_of_mem _ hs)
          linarith

theorem list_sum_half_ite (ts : List ActivityType) (p : ActivityType → Prop)
    [DecidablePred p] :
    (ts.map fun t => if p t then (1 / 2 : ℚ) else 0).sum ≤
      ((ts.filter fun t => p t).length : ℚ) := by
  induction ts with
  | nil => simp
  | cons t ts ih =>
    by_cases h : p t
    · simp only [List.map_cons, List.sum_cons, if_pos h, List.filter_cons,
        decide_eq_true_eq, h, if_true, List.length_cons]
      push_cast
      linarith
    · simp only [List.map_cons, List.sum_cons, if_neg h, List.filter_cons,
        decide_eq_true_eq, h, if_false, zero_add]
      exact ih

/-- C6: whenever the allocation runs (grand raw sum positive, raw durations
non-negative), the sum of the per-label allocated values in the produced
summaries differs from the true merged total by at most the number of
participating labels (in minutes); each label receives
`Math.round(labelRawSum / grandRawSum * trueMergedTotal)`. -/
theorem c6_allocation_conservation (activities : List Activity)
    (hpos : 0 < totalRawDuration activities)
    (hdur : ∀ a ∈ activities, 0 ≤ a.durationMinutes) :
    |((allocationSummaries activities).map fun e => e.2).sum -
      totalActiveMinutes activities| ≤ ((allocationLabels activities).length : ℚ) := by
  have hT : 0 ≤ totalActiveMinutes activities := calcTotal_nonneg _
  have hGne : totalRawDuration activities ≠ 0 := ne_of_gt hpos
  have hrawnn : ∀ t, 0 ≤ rawTypeDuration activities t := by
    intro t
    apply List.sum_nonneg
    intro x hx
    obtain ⟨a, ha, rfl⟩ := List.mem_map.1 hx
    have ha2 : a ∈ nonIdleActivities activities := (List.mem_filter.1 ha).1
    exact hdur a (List.mem_filter.1 ha2).1
  have hsum : ((allocationSummaries activities).map fun e => e.2).sum =
      ((entryOrder activities).map fun t =>
        if 0 < rawTypeDuration activities t then
          (if 0 < round (rawTypeDuration activities t / totalRawDuration activities *
              totalActiveMinutes activities)
            then ((round (rawTypeDuration activities t / totalRawDuration activities *
              totalActiveMinutes activities) : ℤ) : ℚ)
            else 0)
        else 0).sum := by
    unfold allocationSummaries
    rw [if_pos hpos]
    apply sum_filterMap_snd
    intro t
    by_cases h1 : 0 < rawTypeDuration activities t
    · by_cases h2 : 0 < round (rawTypeDuration activities t / totalRawDuration activities *
          totalActiveMinutes activities)
      · simp only [if_pos h1, if_pos h2]
      · simp only [if_pos h1, if_neg h2]
    · simp only [if_neg h1]
  have hsumraw : ((entryOrder activities).map
      fun t => rawTypeDuration activities t).sum = totalRawDuration activities :=
    sum_rawOf (nonIdleActivities activities) (entryOrder activities) (entryOrder_nodup _)
      fun a ha => (entryOrder_mem _ _).2 ⟨a, ha, rfl⟩
  have hxsum : ((entryOrder activities).map fun t =>
      rawTypeDuration activities t / totalRawDuration activities *
        totalActiveMinutes activities).sum = totalActiveMinutes activities := by
    have hcong : ((entryOrder activities).map fun t =>
        rawTypeDuration activities t / totalRawDuration activities *
          totalActiveMinutes activities) =
        ((entryOrder activities).map fun t => rawTypeDuration activities t *
          (totalActiveMinutes activities / totalRawDuration activities)) :=
      List.map_congr_left fun t _ => by ring
    rw [hcong, List.sum_map_mul_right, hsumraw]
    field_simp
  have hbound : ∀ t ∈ entryOrder activities,
      |(if 0 < rawTypeDuration activities t then
          (if 0 < round (rawTypeDuration activities t / totalRawDuration activities *
              totalActiveMinutes activities)
            then ((round (rawTypeDuration activities t / totalRawDuration activities *
              totalActiveMinutes activities) : ℤ) : ℚ)
            else 0)
        else 0) -
        rawTypeDuration activities t / totalRawDuration activities *
          totalActiveMinutes activities| ≤
        (if 0 < rawTypeDuration activities t then (1 / 2 : ℚ) else 0) := by
    intro t _
    by_cases h1 : 0 < rawTypeDuration activities t
    · simp only [if_pos h1]
      have hx : 0 ≤ rawTypeDuration activities t / totalRawDuration activities *
          totalActiveMinutes activities :=
        mul_nonneg (div_nonneg (hrawnn t) hpos.le) hT
      by_cases h2 : 0 < round (rawTypeDuration activities t / totalRawDuration activities *
          totalActiveMinutes activities)
      · rw [if_pos h2, abs_sub_comm]
        exact abs_sub_round _
      · rw [if_neg h2]
        have hr : round (rawTypeDuration activities t / totalRawDuration activities *
            totalActiveMinutes activities) ≤ 0 := not_lt.1 h2
        have hlt : rawTypeDuration activities t / totalRawDuration activities *
            totalActiveMinutes activities < 1 / 2 := by
          have h3 := Int.lt_floor_add_one (rawTypeDuration activities t /
            totalRawDuration activities * totalActiveMinutes activities + 1 / 2)
          rw [← round_eq] at h3
          have h4 : ((round (rawTypeDuration activities t / totalRawDuration activities *
              totalActiveMinutes activities) : ℤ) : ℚ) ≤ 0 := by exact_mod_cast hr
          linarith
        rw [zero_sub, abs_neg, abs_of_nonneg hx]
        linarith
    · simp only [if_neg h1]
      have hz : rawTypeDuration activities t = 0 := le_antisymm (not_lt.1 h1) (hrawnn t)
      rw [hz]
      norm_num
  have htri := list_abs_sum_sub_le (entryOrder activities)
    (fun t =>
      if 0 < rawTypeDuration activities t then
        (if 0 < round (rawTypeDuration activities t / totalRawDuration activities *
            totalActiveMinutes activities)
          then ((round (rawTypeDuration activities t / totalRawDuration activities *
            totalActiveMinutes activities) : ℤ) : ℚ)
          else 0)
      else 0)
    (fun t => rawTypeDuration activities t / totalRawDuration activities *
      totalActiveMinutes activities)
    (fun t => if 0 < rawTypeDuration activities t then (1 / 2 : ℚ) else 0)
    hbound
  rw [hxsum] at htri
  rw [hsum]
  have hhalf := list_sum_half_ite (entryOrder activities)
    fun t => 0 < rawTypeDuration activities t
  exact le_trans htri hhalf

theorem c6_witness :
    0 < totalRawDuration
      [(⟨"a", ActivityType.WebPage, "t", 0, 60000, 1, none, none, none, none⟩ : Activity),
        ⟨"b", ActivityType.Application, "t", 0, 60000, 1, none, none, none, none⟩] ∧
    (∀ a ∈ [(⟨"a", ActivityType.WebPage, "t", 0, 60000, 1, none, none, none, none⟩ : Activity),
        ⟨"b", ActivityType.Application, "t", 0, 60000, 1, none, none, none, none⟩],
      0 ≤ a.durationMinutes) ∧
    |((allocationSummaries
        [(⟨"a", ActivityType.WebPage, "t", 0, 60000, 1, none, none, none, none⟩ : Activity),
          ⟨"b", ActivityType.Application, "t", 0, 60000, 1, none, none, none, none⟩]).map
        fun e => e.2).sum -
      totalActiveMinutes
        [(⟨"a", ActivityType.WebPage, "t", 0, 60000, 1, none, none, none, none⟩ : Activity),
          ⟨"b", ActivityType.Application, "t", 0, 60000, 1, none, none, none, none⟩]| ≤
      ((allocationLabels
        [(⟨"a", ActivityType.WebPage, "t", 0, 60000, 1, none, none, none, none⟩ : Activity),
          ⟨"b", ActivityType.Application, "t", 0, 60000, 1, none, none, none, none⟩]).length : ℚ) := by
  have h1 : 0 < totalRawDuration
      [(⟨"a", ActivityType.WebPage, "t", 0, 60000, 1, none, none, none, none⟩ : Activity),
        ⟨"b", ActivityType.Application, "t", 0, 60000, 1, none, none, none, none⟩] := by
    simp [totalRawDuration, nonIdleActivities]
  have h2 : ∀ a ∈ [(⟨"a", ActivityType.WebPage, "t", 0, 60000, 1,
        none, none, none, none⟩ : Activity),
      ⟨"b", ActivityType.Application, "t", 0, 60000, 1, none, none, none, none⟩],
      0 ≤ a.durationMinutes := by
    intro a ha
    rcases List.mem_cons.1 ha with rfl | ha
    · show (0 : ℚ) ≤ 1
      norm_num
    · rcases List.mem_singleton.1 ha with rfl
      show (0 : ℚ) ≤ 1
      norm_num
  exact ⟨h1, h2, c6_allocation_conservation _ h1 h2⟩

/-- `toLowerCase()` on the character list of a string (computation-friendly
form of `String.toLower`). -/
def jsToLower (s : String) : String :=
  String.mk (s.toList.map Char.toLower)

/-- `String.includes`-style substring test used by the activity-type
mapping. -/
def strContainsSub (s pat : String) : Bool :=
  s.toList.tails.any fun t => pat.toList.isPrefixOf t

/-- part_002 `mapExcelActivityType`: keyword heuristic on the lowercased
raw type string. -/
def mapExcelActivityType2 (typeStr : String) : ActivityType :=
  let lowerType := jsToLower typeStr
  if strContainsSub lowerType "web" || strContainsSub lowerType "http" then
    ActivityType.WebPage
  else if strContainsSub lowerType "app" || strContainsSub lowerType "program" ||
      strContainsSub lowerType "exe" then
    ActivityType.Application
  else if strContainsSub lowerType "idle" || strContainsSub lowerType "lock" ||
      strContainsSub lowerType "away" then
    ActivityType.Idle
  else
    ActivityType.Other

/-- part_003 `mapExcelActivityType`: the named-format dialect's keyword
heuristic (`!type` also catches the empty string). -/
def mapExcelActivityType3 (type : Option String) : ActivityType :=
  match type with
  | none => ActivityType.Other
  | some t =>
    if t = "" then ActivityType.Other
    else
      let lowerType := jsToLower t
      if strContainsSub lowerType "webpage" || strContainsSub lowerType "web" then
        ActivityType.WebPage
      else if strContainsSub lowerType "application" then ActivityType.Application
      else if strContainsSub lowerType "idle" then ActivityType.Idle
      else if strContainsSub lowerType "machine lock" then ActivityType.Idle
      else ActivityType.Other

/-- `parseInt(group, 10)` on an all-digit capture group. -/
def digitsVal (digits : List Char) : ℕ :=
  digits.foldl (fun n c => 10 * n + (c.toNat - '0'.toNat)) 0

/-- One optional regex component `(?:(\d+)\s*X)?` matched greedily at the
head of the input (case-insensitive unit letter): succeeds exactly when a
digit run, optional whitespace and the unit letter follow, consuming them;
otherwise it matches the empty string and consumes nothing.  Backtracking
inside `\d+` can never conjure the unit letter, so this deterministic
reading agrees with the JS engine. -/
def tryComponent (unit : Char) (s : List Char) : Option ℕ × List Char :=
  let digits := s.takeWhile Char.isDigit
  let rest := s.dropWhile Char.isDigit
  if digits.isEmpty then (none, s)
  else
    let rest2 := rest.dropWhile Char.isWhitespace
    match rest2 with
    | c :: rest3 => if c.toLower = unit then (some (digitsVal digits), rest3) else (none, s)
    | [] => (none, s)

/-- The capture groups of `/(?:(\d+)\s*h)?\s*(?:(\d+)\s*m)?\s*(?:(\d+)\s*s)?/i`
matched at the start of the string, with the inter-group `\s*` gaps. -/
def regexMatchHMS (s : List Char) : Option ℕ × Option ℕ × Option ℕ :=
  let hm := tryComponent 'h' s
  let s1b := hm.2.dropWhile Char.isWhitespace
  let mm := tryComponent 'm' s1b
  let s2b := mm.2.dropWhile Char.isWhitespace
  let sm := tryComponent 's' s2b
  (hm.1, mm.1, sm.1)

/-- JS `durationStr.match(durationRegex)`: never `null`, because every
component of the pattern is optional, so the pattern matches (possibly the
empty string) at index 0 of any input. -/
def jsMatchHMS (s : List Char) : Option (Option ℕ × Option ℕ × Option ℕ) :=
  some (regexMatchHMS s)

/-- JS `parseInt(str, 10)`: leading whitespace, optional sign, leading
decimal digits; `none` models NaN. -/
def parseIntDec (s : List Char) : Option ℤ :=
  let s1 := s.dropWhile Char.isWhitespace
  match s1 with
  | '-' :: rest =>
    let digits := rest.takeWhile Char.isDigit
    if digits.isEmpty then none else some (-(digitsVal digits : ℤ))
  | '+' :: rest =>
    let digits := rest.takeWhile Char.isDigit
    if digits.isEmpty then none else some (digitsVal digits : ℤ)
  | _ =>
    let digits := s1.takeWhile Char.isDigit
    if digits.isEmpty then none else some (digitsVal digits : ℤ)

/-- part_003 `parseDurationToMinutes`: composite "Xh Ym Zs" seconds, with a
bare-integer fallback guarded by `if (match)` — unreachable, since the
all-optional regex always produces a match — and unparseable input giving
0; the total seconds are rounded to minutes. -/
def parseDurationToMinutes (durationStr : Option String) : ℤ :=
  match durationStr with
  | none => 0
  | some str =>
    if str = "" then 0
    else
      match jsMatchHMS str.toList with
      | some (hGroup, mGroup, sGroup) =>
        let totalSeconds : ℤ :=
          (hGroup.getD 0 : ℕ) * 3600 + (mGroup.getD 0 : ℕ) * 60 + (sGroup.getD 0 : ℕ)
        round ((totalSeconds : ℚ) / 60)
      | none =>
        match parseIntDec str.toList with
        | some secondsOnly => round ((secondsOnly : ℚ) / 60)
        | none => 0

/-- A row of the timestamp dialect (part_002), its timestamp cells already
taken through `parseTimestampToDate` (`none` models `null`). -/
structure CsvRow2 where
  startRaw : Option ℚ
  endRaw : Option ℚ
  activityTypeStr : Option String := none
  app : Option String := none
  url : Option String := none
  title : Option String := none
  category : Option String := none
  user : Option String := none
deriving Repr

/-- part_002 row loop body (lines 152-227): skip when a timestamp failed to
parse; compute the truncated-minute duration and skip when it is negative;
bump a zero duration with distinct endpoints to one minute; otherwise build
the activity. -/
def processRow2 (i : ℕ) (row : CsvRow2) : Option Activity :=
  match row.startRaw, row.endRaw with
  | some startTime, some endTime =>
    let activityType := mapExcelActivityType2 (row.activityTypeStr.getD "Other")
    let durationMinutes : ℤ := differenceInMinutes endTime startTime
    if durationMinutes < 0 then
      none
    else
      let durationMinutes : ℚ :=
        if durationMinutes = 0 ∧ startTime ≠ endTime then 1 else (durationMinutes : ℚ)
      let username := (row.user.getD "Unknown User").trim
      some {
        id := "csv-" ++ toString i
        type := activityType
        title := row.title.getD "N/A"
        startTime := startTime
        endTime := endTime
        durationMinutes := durationMinutes
        username := some (if username = "" then "Unknown User" else username)
        applicationName := row.app
        url := row.url
        category := row.category }
  | _, _ => none

/-- A row of the named-format dialect (part_003), its timestamp cells
already taken through `parseCsvDateTime`. -/
structure CsvRow3 where
  startRaw : Option ℚ
  endRaw : Option ℚ
  activityTypeStr : Option String := none
  durationStr : Option String := none
  app : Option String := none
  web : Option String := none
  cat : Option String := none
  title : Option String := none
deriving Repr

/-- The JS `||` fallback chain on possibly-absent strings (the empty string
is falsy). -/
def jsOrStr (a b : Option String) : Option String :=
  match a with
  | some s => if s = "" then b else some s
  | none => b

/-- part_003 row loop body (lines 193-266): skip when a timestamp or the
activity-type string is missing (or the latter empty); `durationMinutes`
is the parsed duration string, falling back (`||`) to the truncated-minute
difference; no end-before-start check exists in this dialect. -/
def processRow3 (i : ℕ) (row : CsvRow3) : Option Activity :=
  match row.startRaw, row.endRaw with
  | some startTime, some endTime =>
    match row.activityTypeStr with
    | none => none
    | some tyStr =>
      if tyStr = "" then none
      else
        let durationMinutes : ℤ :=
          let d := parseDurationToMinutes row.durationStr
          if d ≠ 0 then d else differenceInMinutes endTime startTime
        some {
          id := "file-" ++ toString i
          type := mapExcelActivityType3 (some tyStr)
          title := (jsOrStr row.title (jsOrStr row.app (jsOrStr row.web
            (jsOrStr (some tyStr) (some "Unknown Activity"))))).getD "Unknown Activity"
          startTime := startTime
          endTime := endTime
          durationMinutes := (durationMinutes : ℚ)
          username := none
          applicationName := jsOrStr row.app none
          url := jsOrStr row.web none
          category := jsOrStr row.cat none }
  | _, _ => none

def actStartLE (a b : Activity) : Prop := a.startTime ≤ b.startTime

instance : DecidableRel actStartLE :=
  fun a b => inferInstanceAs (Decidable (a.startTime ≤ b.startTime))

/-- part_002 batch: process each row in order, keep the survivors, sort by
start time. -/
def parseBatchRows2 (rows : List CsvRow2) : List Activity :=
  List.insertionSort actStartLE (rows.enum.filterMap fun p => processRow2 p.1 p.2)

/-- part_003 batch: process each row in order, keep the survivors, sort by
start time. -/
def parseBatchRows3 (rows : List CsvRow3) : List Activity :=
  List.insertionSort actStartLE (rows.enum.filterMap fun p => processRow3 p.1 p.2)

/-- part_002 header resolution: for each candidate name in priority order,
find a header equal to it case-insensitively. -/
def findHeader2 (headers : List String) (possibleNames : List String) : Option String :=
  possibleNames.findSome? fun name =>
    headers.find? fun h => jsToLower h == jsToLower name

/-- part_002 schema validation (lines 122-145): "Start UTC Timestamp",
"End UTC Timestamp", an activity-type column AND "Logged In User" are all
mandatory. -/
def schemaOk2 (headers : List String) : Bool :=
  ((findHeader2 headers ["Start UTC Timestamp"]).isSome &&
    (findHeader2 headers ["End UTC Timestamp"]).isSome) &&
  (findHeader2 headers ["Activity Type", "Type"]).isSome &&
  (findHeader2 headers ["Logged In User"]).isSome

/-- part_003 header resolution: the first header (in header order) whose
lowercase form is among the lowercased candidate names. -/
def findHeader3 (headers : List String) (possibleNames : List String) : Option String :=
  headers.find? fun f => (possibleNames.map fun n => jsToLower n).contains (jsToLower f)

/-- part_003 schema validation (lines 162-186): start, end and
activity-type columns are mandatory; everything else is optional. -/
def schemaOk3 (headers : List String) : Bool :=
  (findHeader3 headers ["Start Date/Time", "StartTime", "Start Date"]).isSome &&
  (findHeader3 headers ["End Date/Time", "EndTime", "End Date"]).isSome &&
  (findHeader3 headers ["Activity Type", "Type"]).isSome

/-- C9: the composite duration pattern works — "1h 2m 30s" parses to 63
minutes (3750 seconds rounded) — but a bare integer string is NOT treated
as seconds: the all-optional regex matches (emptily) on any input, so the
`if (match)` guard always takes the regex branch and the bare-integer
fallback is dead code; "90" parses to 0 minutes where the claim (and the
code's own comment) expects round(90/60) = 2. -/
theorem c9_parse_duration_eval :
    parseDurationToMinutes (some "1h 2m 30s") = 63 ∧
    parseDurationToMinutes (some "90") = 0 ∧
    round ((90 : ℚ) / 60) = 2 ∧
    (∀ s : List Char, (jsMatchHMS s).isSome) := by
  refine ⟨?_, ?_, ?_, fun s => rfl⟩
  · have h : regexMatchHMS ("1h 2m 30s".toList) = (some 1, some 2, some 30) := by decide
    simp only [parseDurationToMinutes, jsMatchHMS, h]
    norm_num [round_eq, Int.floor_eq_iff]
    decide
  · have h : regexMatchHMS ("90".toList) = (none, none, none) := by decide
    simp only [parseDurationToMinutes, jsMatchHMS, h]
    norm_num
  · norm_num [round_eq, Int.floor_eq_iff]

/-- C7 counterexample: a file containing exactly the three columns
"Start UTC Timestamp", "End UTC Timestamp", "Activity Type" is REJECTED by
the timestamp dialect, because that parser additionally mandates a
"Logged In User" column. -/
theorem c7_counterexample :
    schemaOk2 ["Start UTC Timestamp", "End UTC Timestamp", "Activity Type"] = false := by
  decide

/-- C7 (amended): the named-format dialect fails schema validation exactly
when a start-time, end-time or activity-type column cannot be resolved,
and accepts a file with only those three columns; the timestamp dialect
additionally mandates a "Logged In User" column, so the three-column file
is rejected there and accepted only with the user column present. -/
theorem c7_schema_resolution (headers : List String) :
    (schemaOk3 headers = true ↔
      ((findHeader3 headers ["Start Date/Time", "StartTime", "Start Date"]).isSome ∧
        (findHeader3 headers ["End Date/Time", "EndTime", "End Date"]).isSome ∧
        (findHeader3 headers ["Activity Type", "Type"]).isSome)) ∧
    (schemaOk2 headers = true ↔
      ((findHeader2 headers ["Start UTC Timestamp"]).isSome ∧
        (findHeader2 headers ["End UTC Timestamp"]).isSome ∧
        (findHeader2 headers ["Activity Type", "Type"]).isSome ∧
        (findHeader2 headers ["Logged In User"]).isSome)) ∧
    schemaOk3 ["Start Date/Time", "End Date/Time", "Activity Type"] = true ∧
    schemaOk2 ["Start UTC Timestamp", "End UTC Timestamp", "Activity Type"] = false ∧
    schemaOk2 ["Start UTC Timestamp", "End UTC Timestamp", "Activity Type",
      "Logged In User"] = true := by
  refine ⟨?_, ?_, by decide, by decide, by decide⟩
  · unfold schemaOk3
    simp [Bool.and_eq_true]
    tauto
  · unfold schemaOk2
    simp [Bool.and_eq_true]
    tauto

/-- C4 counterexample: in the named-format dialect a row whose parsed end
time (0) is strictly earlier than its parsed start time (60000 ms) is NOT
dropped — the returned batch contains an activity with endTime before
startTime, because this dialect has no end-before-start check at all. -/
theorem c4_counterexample :
    ((parseBatchRows3
      [⟨some 60000, some 0, some "Application", none, none, none, none, none⟩]).map
        fun a => (a.startTime, a.endTime)) = [(60000, 0)] := by
  decide

/-- C4 (amended): in the timestamp dialect a row with both timestamps
parsed is dropped exactly when the truncated whole-minute difference
`differenceInMinutes(endTime, startTime)` is negative, so an endTime up to
one minute earlier than startTime survives (its `durationMinutes` forced
to 1, as the concrete 30-second-backwards row shows); the named-format
dialect never drops a row for endTime earlier than startTime. -/
theorem c4_end_before_start_rows :
    (∀ (i : ℕ) (row : CsvRow2) (startTime endTime : ℚ),
      row.startRaw = some startTime → row.endRaw = some endTime →
      (processRow2 i row = none ↔ differenceInMinutes endTime startTime < 0)) ∧
    (∀ (j : ℕ) (row : CsvRow3) (st en : ℚ) (tyStr : String),
      row.startRaw = some st → row.endRaw = some en →
      row.activityTypeStr = some tyStr → tyStr ≠ "" →
      (processRow3 j row).isSome) ∧
    ((processRow2 0 ⟨some 60000, some 30000, some "Other", none, none, none, none, none⟩).map
      fun a => a.durationMinutes) = some 1 := by
  refine ⟨?_, ?_, ?_⟩
  · intro i row startTime endTime hs he
    unfold processRow2
    rw [hs, he]
    by_cases hd : differenceInMinutes endTime startTime < 0
    · simp [hd]
    · simp [hd]
  · intro j row st en tyStr h1 h2 h3 h4
    unfold processRow3
    rw [h1, h2, h3]
    simp [h4]
  · have hjs : differenceInMinutes (30000 : ℚ) 60000 = 0 := by
      norm_num [differenceInMinutes, jsTrunc, Int.ceil_eq_iff]
    simp only [processRow2, hjs]
    norm_num

theorem c4_witness :
    ((⟨some 0, some 60000, none, none, none, none, none, none⟩ : CsvRow2).startRaw
      = some 0) ∧
    ((⟨some 0, some 60000, none, none, none, none, none, none⟩ : CsvRow2).endRaw
      = some 60000) ∧
    (processRow2 0 (⟨some 0, some 60000, none, none, none, none, none, none⟩ : CsvRow2)
      = none ↔ differenceInMinutes (60000 : ℚ) 0 < 0) :=
  ⟨rfl, rfl, c4_end_before_start_rows.1 0 _ 0 60000 rfl rfl⟩

/-- hourly-timeline-breakdown.tsx (lines 66-97): for one activity and the
hour bucket `[hourStart, hourStart + 1h)`, the component filters with
`act.startTime < hourEnd && act.endTime > hourStart`, clamps
`segmentStart = max(startTime, hourStart)`, `segmentEnd = min(endTime, hourEnd)`,
and emits nothing when the truncated-second width
`max(0, endSecondsInHour - startSecondsInHour)` is not positive; otherwise
it renders the segment `(segmentStart, segmentEnd)`. -/
def hourWindowSegment (hourStart : ℚ) (a : Activity) : Option (ℚ × ℚ) :=
  let hourEnd := hourStart + 3600000
  if a.startTime < hourEnd ∧ hourStart < a.endTime then
    let segmentStart := max a.startTime hourStart
    let segmentEnd := min a.endTime hourEnd
    let startSecondsInHour := differenceInSeconds segmentStart hourStart
    let endSecondsInHour := differenceInSeconds segmentEnd hourStart
    let durationSecondsInHour := max 0 (endSecondsInHour - startSecondsInHour)
    if durationSecondsInHour ≤ 0 then none else some (segmentStart, segmentEnd)
  else none

/-- part_006 `drawBars` (lines 267-284): activity start/end are first
truncated to whole minutes from day start, the activity is skipped when
outside `[startMin, startMin + durationMin)`, then clamped to the view and
skipped when the clamped width is not positive. -/
def drawBarsSegment (dayStart startMin durationMin : ℚ) (a : Activity) : Option (ℚ × ℚ) :=
  let viewEndMinutes := startMin + durationMin
  let activityStartMinutes : ℚ := (differenceInMinutes a.startTime dayStart : ℤ)
  let activityEndMinutes : ℚ := (differenceInMinutes a.endTime dayStart : ℤ)
  if activityEndMinutes ≤ startMin ∨ activityStartMinutes ≥ viewEndMinutes then none
  else
    let clampedStartView := max startMin activityStartMinutes
    let clampedEndView := min viewEndMinutes activityEndMinutes
    let durationInView := clampedEndView - clampedStartView
    if durationInView ≤ 0 then none else some (clampedStartView, clampedEndView)

theorem diffSec_whole {x y : ℚ} (hx : wholeSecond x) (hy : wholeSecond y) :
    ((differenceInSeconds x y : ℤ) : ℚ) = (x - y) / 1000 := by
  obtain ⟨kx, rfl⟩ := hx
  obtain ⟨ky, rfl⟩ := hy
  unfold differenceInSeconds
  have h : (1000 * (kx : ℚ) - 1000 * ky) / 1000 = ((kx - ky : ℤ) : ℚ) := by
    push_cast
    ring
  rw [h, jsTrunc_intCast]

theorem diffMin_whole {x y : ℚ} (h : ∃ k : ℤ, x - y = 60000 * k) :
    ((differenceInMinutes x y : ℤ) : ℚ) = (x - y) / 60000 := by
  obtain ⟨k, hk⟩ := h
  unfold differenceInMinutes
  rw [hk]
  have h2 : (60000 * (k : ℚ)) / 60000 = ((k : ℤ) : ℚ) := by
    norm_num
  rw [h2, jsTrunc_intCast]

/-- C3 counterexample: an activity spanning [200ms, 900ms] intersects the
hour window starting at 0 on a span of positive length (700 ms), yet the
hourly breakdown emits no segment for it: both clamped endpoints truncate
to second offset 0, so the computed width is zero. -/
theorem c3_counterexample :
    hourWindowSegment 0
      ⟨"a", ActivityType.Other, "t", 200, 900, 0, none, none, none, none⟩ = none ∧
    max (200 : ℚ) 0 < min (900 : ℚ) (0 + 3600000) := by
  constructor
  · simp only [hourWindowSegment]
    rw [if_pos (by constructor <;> norm_num)]
    have hmax : max (200 : ℚ) 0 = 200 := max_eq_left (by norm_num)
    have hmin : min (900 : ℚ) (0 + 3600000) = 900 := min_eq_left (by norm_num)
    rw [hmax, hmin]
    have h1 : differenceInSeconds (900 : ℚ) 0 = 0 := by
      norm_num [differenceInSeconds, jsTrunc, Int.floor_eq_iff]
    have h2 : differenceInSeconds (200 : ℚ) 0 = 0 := by
      norm_num [differenceInSeconds, jsTrunc, Int.floor_eq_iff]
    rw [h1, h2]
    norm_num
  · rw [max_eq_left (by norm_num : (0 : ℚ) ≤ 200),
      min_eq_left (by norm_num : (900 : ℚ) ≤ 0 + 3600000)]
    norm_num

/-- C3 (amended): for whole-second-aligned inputs the hourly breakdown
emits a segment exactly when the intersection of [startTime, endTime] with
the hour window has positive length, and the emitted segment is exactly
that intersection (max of starts, min of ends); an activity whose end
equals the window start never yields a segment (no alignment needed); the
13:50-14:10 activity clipped to the 14:00-15:00 window yields exactly
14:00-14:10; and `drawBars` behaves the same way at whole-minute
granularity. -/
theorem c3_window_clipping :
    (∀ (w : ℚ) (a : Activity), wholeSecond w → wholeSecond a.startTime →
      wholeSecond a.endTime →
      hourWindowSegment w a =
        (if max a.startTime w < min a.endTime (w + 3600000)
          then some (max a.startTime w, min a.endTime (w + 3600000))
          else none)) ∧
    (∀ (w : ℚ) (a : Activity), a.endTime = w → hourWindowSegment w a = none) ∧
    hourWindowSegment 50400000
      ⟨"a", ActivityType.Other, "t", 49800000, 51000000, 20, none, none, none, none⟩
        = some (50400000, 51000000) ∧
    (∀ (dayStart startMin durationMin : ℚ) (a : Activity),
      (∃ k : ℤ, a.startTime - dayStart = 60000 * k) →
      (∃ k : ℤ, a.endTime - dayStart = 60000 * k) →
      drawBarsSegment dayStart startMin durationMin a =
        (if max startMin ((a.startTime - dayStart) / 60000) <
            min (startMin + durationMin) ((a.endTime - dayStart) / 60000)
          then some (max startMin ((a.startTime - dayStart) / 60000),
            min (startMin + durationMin) ((a.endTime - dayStart) / 60000))
          else none)) := by
  have hpart1 : ∀ (w : ℚ) (a : Activity), wholeSecond w → wholeSecond a.startTime →
      wholeSecond a.endTime →
      hourWindowSegment w a =
        (if max a.startTime w < min a.endTime (w + 3600000)
          then some (max a.startTime w, min a.endTime (w + 3600000))
          else none) := by
    intro w a hw hs he
    have hwE : wholeSecond (w + 3600000) := by
      obtain ⟨k, rfl⟩ := hw
      exact ⟨k + 3600, by push_cast; ring⟩
    have hsegS : wholeSecond (max a.startTime w) := by
      rcases max_choice a.startTime w with h | h <;> rw [h] <;> assumption
    have hsegE : wholeSecond (min a.endTime (w + 3600000)) := by
      rcases min_choice a.endTime (w + 3600000) with h | h <;> rw [h] <;> assumption
    have hA := diffSec_whole hsegS hw
    have hB := diffSec_whole hsegE hw
    have hq : ((differenceInSeconds (min a.endTime (w + 3600000)) w -
        differenceInSeconds (max a.startTime w) w : ℤ) : ℚ) =
        (min a.endTime (w + 3600000) - max a.startTime w) / 1000 := by
      push_cast
      rw [hA, hB]
      ring
    simp only [hourWindowSegment]
    by_cases hf : a.startTime < w + 3600000 ∧ w < a.endTime
    · rw [if_pos hf]
      by_cases hlt : max a.startTime w < min a.endTime (w + 3600000)
      · rw [if_pos hlt]
        have hpos : 0 < differenceInSeconds (min a.endTime (w + 3600000)) w -
            differenceInSeconds (max a.startTime w) w := by
          have h2 : (0 : ℚ) < (min a.endTime (w + 3600000) - max a.startTime w) / 1000 :=
            div_pos (sub_pos.2 hlt) (by norm_num)
          rw [← hq] at h2
          exact_mod_cast h2
        rw [if_neg (not_le.2 (lt_of_lt_of_le hpos (le_max_right 0 _)))]
      · rw [if_neg hlt]
        have hle : differenceInSeconds (min a.endTime (w + 3600000)) w -
            differenceInSeconds (max a.startTime w) w ≤ 0 := by
          have h2 : (min a.endTime (w + 3600000) - max a.startTime w) / 1000 ≤ (0 : ℚ) :=
            div_nonpos_of_nonpos_of_nonneg (sub_nonpos.2 (not_lt.1 hlt)) (by norm_num)
          rw [← hq] at h2
          exact_mod_cast h2
        rw [if_pos (max_le (le_refl 0) hle)]
    · rw [if_neg hf]
      rcases not_and_or.1 hf with h | h
      · have h1 : w + 3600000 ≤ a.startTime := not_lt.1 h
        rw [if_neg (not_lt.2 (le_trans (min_le_right _ _)
          (le_trans h1 (le_max_left _ _))))]
      · have h1 : a.endTime ≤ w := not_lt.1 h
        rw [if_neg (not_lt.2 (le_trans (min_le_left _ _)
          (le_trans h1 (le_max_right _ _))))]
  refine ⟨hpart1, ?_, ?_, ?_⟩
  · intro w a he
    simp only [hourWindowSegment]
    rw [if_neg]
    rintro ⟨_, h2⟩
    rw [he] at h2
    exact lt_irrefl _ h2
  · rw [hpart1 50400000 _ ⟨50400, by norm_num⟩ ⟨49800, by norm_num⟩ ⟨51000, by norm_num⟩]
    have hmax : max (49800000 : ℚ) 50400000 = 50400000 := max_eq_right (by norm_num)
    have hmin : min (51000000 : ℚ) (50400000 + 3600000) = 51000000 :=
      min_eq_left (by norm_num)
    show (if max (49800000 : ℚ) 50400000 < min (51000000 : ℚ) (50400000 + 3600000)
      then some (max (49800000 : ℚ) 50400000, min (51000000 : ℚ) (50400000 + 3600000))
      else none) = some (50400000, 51000000)
    rw [hmax, hmin, if_pos (by norm_num)]
  · intro dayStart startMin durationMin a hs he
    have hS := diffMin_whole hs
    have hE := diffMin_whole he
    simp only [drawBarsSegment]
    rw [hS, hE]
    by_cases hf : (a.endTime - dayStart) / 60000 ≤ startMin ∨
        (a.startTime - dayStart) / 60000 ≥ startMin + durationMin
    · rw [if_pos hf]
      rcases hf with h | h
      · rw [if_neg (not_lt.2 (le_trans (min_le_right _ _)
          (le_trans h (le_max_left _ _))))]
      · rw [if_neg (not_lt.2 (le_trans (min_le_left _ _)
          (le_trans h (le_max_right _ _))))]
    · rw [if_neg hf]
      by_cases hlt : max startMin ((a.startTime - dayStart) / 60000) <
          min (startMin + durationMin) ((a.endTime - dayStart) / 60000)
      · rw [if_pos hlt, if_neg (not_le.2 (sub_pos.2 hlt))]
      · rw [if_neg hlt, if_pos (sub_nonpos.2 (not_lt.1 hlt))]

theorem c3_witness :
    ((⟨"a", ActivityType.Other, "t", 0, 50, 1, none, none, none, none⟩ : Activity).endTime
      = (50 : ℚ)) ∧
    hourWindowSegment 50
      ⟨"a", ActivityType.Other, "t", 0, 50, 1, none, none, none, none⟩ = none :=
  ⟨rfl, c3_window_clipping.2.1 50 _ rfl⟩
